import Mathlib

/-!
# Verification of the investment_forecasting portfolio engine

Shallow embedding of the lot-level portfolio accounting code
(`utils/transaction.py`, `strategies/tax_loss_harvesting.py`,
`utils/rebalance.py`, `utils/allocation.py`, `utils/reporting.py`,
`models/portfolio.py`) and proofs about it.

Modelling conventions:
* Monetary and share quantities are rationals (`ℚ`); the Python code uses
  binary floats, and `round(x, n)` rounds half to even, which `roundTo`
  reproduces exactly on rationals.
* Purchase dates are natural numbers; the code stores ISO `YYYY-MM-DD`
  strings whose lexicographic order coincides with chronological order.
* Python dicts become association lists (`List (String × α)`) with
  insertion-order-preserving update (`dictSet`), matching dict iteration
  and mutation semantics for duplicate-free key sets.
* A Python function that can return `None` is modelled with `Option` or an
  explicit success flag.
-/

/-- Round half to even of a rational to the nearest integer, exactly as
Python's builtin `round` behaves on exact values. -/
def rndHalfEven (x : ℚ) : ℤ :=
  if x - ⌊x⌋ < 1/2 then ⌊x⌋
  else if 1/2 < x - ⌊x⌋ then ⌊x⌋ + 1
  else if ⌊x⌋ % 2 = 0 then ⌊x⌋ else ⌊x⌋ + 1

/-- `roundTo n x` models Python `round(x, n)`. -/
def roundTo (n : ℕ) (x : ℚ) : ℚ :=
  (rndHalfEven (x * 10 ^ n) : ℚ) / 10 ^ n

/-- Python `round(x, 2)`. -/
def round2 (x : ℚ) : ℚ := roundTo 2 x

/-- Python `round(x, 4)`. -/
def round4 (x : ℚ) : ℚ := roundTo 4 x

/-- `x` is an exact multiple of `10 ^ (-n)` (e.g. a whole-cent amount for
`n = 2`). On such inputs `roundTo n` is the identity. -/
def decMul (n : ℕ) (x : ℚ) : Prop := (x * 10 ^ n).den = 1

instance (n : ℕ) (x : ℚ) : Decidable (decMul n x) := by
  unfold decMul; infer_instance

/-! ## Data model

`Lot` models one entry of `holdings[ticker]['investments']` (a
`purchase_record` dict created by `buy_position`); `Holding` models one
value of `portfolio.holdings`; `Txn` models one entry of the transaction
log; `Portfolio` models the mutable `Portfolio` object fields touched by
the verified operations. -/

/-- One purchase lot (`purchase_record` in `utils/transaction.py`). -/
structure Lot where
  date : ℕ
  initial_shares_purchased : ℚ
  shares_remaining : ℚ
  price : ℚ
  cost : ℚ
  current_value : ℚ
  return_pct : ℚ
  days_held : ℕ
  sold : Bool
deriving Repr, DecidableEq

/-- One value of the `portfolio.holdings` dict (the fields the verified
operations read or write). -/
structure Holding where
  initial_shares_purchased : ℚ
  shares_remaining : ℚ
  investments : List Lot
  cost_basis : ℚ
deriving Repr, DecidableEq

/-- One transaction-log record.  `gain_loss` is `none` for buys (the code
only puts the key in sell records); free-text descriptions are not
modelled. -/
structure Txn where
  date : ℕ
  typ : String
  ticker : String
  shares : ℚ
  price : ℚ
  amount : ℚ
  gain_loss : Option ℚ
deriving Repr, DecidableEq

/-- The `year`/`month` of a `pd.Timestamp`, the only components the
rebalance-cadence check reads. -/
structure SimDate where
  year : ℕ
  month : ℕ
deriving Repr, DecidableEq

/-- The `portfolio_allocation` attribute: the literal string `"equal"`, a
ticker→weight dict, or any other value (the `else` branch of
`calculate_allocation_weights`). -/
inductive AllocationSetting where
  | equal
  | custom (weights : List (String × ℚ))
  | other
deriving Repr, DecidableEq

/-- The `Portfolio` object (`models/portfolio.py`), restricted to the
fields the verified operations touch. -/
structure Portfolio where
  cash : ℚ
  holdings : List (String × Holding)
  short_term_realized_gains : ℚ
  long_term_realized_gains : ℚ
  short_term_realized_losses : ℚ
  long_term_realized_losses : ℚ
  rebalance_frequency : String
  last_rebalance_date : SimDate
  portfolio_allocation : AllocationSetting
  tickers : List String
deriving Repr, DecidableEq

/-- Update a key of an association list in place (Python dict assignment:
an existing key keeps its position, a new key is appended at the end). -/
def dictSet {α : Type} : List (String × α) → String → α → List (String × α)
  | [], k, v => [(k, v)]
  | (k', v') :: rest, k, v =>
    if k' = k then (k, v) :: rest else (k', v') :: dictSet rest k v

/-- Python dict read (`d[k]` / `k in d`): the value at the first binding
of the key, if any. -/
def dictGet {α : Type} : List (String × α) → String → Option α
  | [], _ => none
  | (k', v') :: rest, k => if k' = k then some v' else dictGet rest k

/-! ## `utils/reporting.py` -/

/-- `record_gains_losses(lot_gain_loss, days_held, portfolio)`: route a
realized amount into the four gain/loss buckets by sign and holding
period. -/
def record_gains_losses (lot_gain_loss : ℚ) (days_held : ℕ) (p : Portfolio) :
    Portfolio :=
  if days_held < 365 ∧ lot_gain_loss ≤ 0 then
    { p with short_term_realized_losses :=
        p.short_term_realized_losses + lot_gain_loss }
  else if 365 ≤ days_held ∧ lot_gain_loss ≤ 0 then
    { p with long_term_realized_losses :=
        p.long_term_realized_losses + lot_gain_loss }
  else if days_held < 365 ∧ 0 < lot_gain_loss then
    { p with short_term_realized_gains :=
        p.short_term_realized_gains + lot_gain_loss }
  else if 365 ≤ days_held ∧ 0 < lot_gain_loss then
    { p with long_term_realized_gains :=
        p.long_term_realized_gains + lot_gain_loss }
  else p

/-! ## `utils/transaction.py` — `buy_position` -/

/-- The skeleton holding dict `buy_position` creates for a ticker that is
not yet in `portfolio.holdings`. -/
def emptyHolding : Holding :=
  { initial_shares_purchased := 0, shares_remaining := 0,
    investments := [], cost_basis := 0 }

/-- `buy_position(portfolio, ticker, shares_to_buy, price, date,
transactions, description)`.  Returns the updated portfolio and
transaction log (the Python function mutates `portfolio` in place and
returns `transactions`). -/
def buy_position (p : Portfolio) (ticker : String) (shares_to_buy price : ℚ)
    (date : ℕ) (txns : List Txn) : Portfolio × List Txn :=
  let actual_investment := round2 (shares_to_buy * price)
  -- "Check if we have enough cash"
  let shares_to_buy' :=
    if p.cash < actual_investment then p.cash / price else shares_to_buy
  let actual_investment' :=
    if p.cash < actual_investment then round2 (shares_to_buy' * price)
    else actual_investment
  if 0 < shares_to_buy' then
    let h := (dictGet p.holdings ticker).getD emptyHolding
    let lot : Lot :=
      { date := date, initial_shares_purchased := shares_to_buy',
        shares_remaining := shares_to_buy', price := price,
        cost := actual_investment', current_value := actual_investment',
        return_pct := 0, days_held := 0, sold := false }
    let total_shares := h.shares_remaining + shares_to_buy'
    let new_basis :=
      (h.cost_basis * (total_shares - shares_to_buy') + actual_investment') /
        total_shares
    let h' : Holding :=
      { initial_shares_purchased :=
          h.initial_shares_purchased + shares_to_buy',
        shares_remaining := total_shares,
        investments := h.investments ++ [lot],
        cost_basis := new_basis }
    let txn : Txn :=
      { date := date, typ := "buy", ticker := ticker,
        shares := shares_to_buy', price := price,
        amount := -actual_investment', gain_loss := none }
    ({ p with holdings := dictSet p.holdings ticker h',
              cash := p.cash - actual_investment' },
     txns ++ [txn])
  else (p, txns)

/-! ## `utils/transaction.py` — `sell_position` -/

/-- Pair each lot with its position in the `investments` list; positions
stand in for Python object identity when writing mutations back. -/
def idxFrom (n : ℕ) : List Lot → List (ℕ × Lot)
  | [] => []
  | l :: ls => (n, l) :: idxFrom (n + 1) ls

/-- The sell queue of `sell_position`: active (non-sold) lots, split into
loss lots (`inv['price'] > price`) sorted by purchase price descending and
gain lots (`inv['price'] <= price`) sorted by purchase date ascending,
losses first.  Python's `list.sort` is stable, as is `insertionSort`. -/
def sellingQueue (lots : List Lot) (price : ℚ) : List (ℕ × Lot) :=
  let active := (idxFrom 0 lots).filter (fun iv => !iv.2.sold)
  let loss := active.filter (fun iv => decide (price < iv.2.price))
  let gain := active.filter (fun iv => decide (iv.2.price ≤ price))
  List.insertionSort (fun a b => b.2.price ≤ a.2.price) loss ++
    List.insertionSort (fun a b => a.2.date ≤ b.2.date) gain

/-- Result of the lot-consumption loop of `sell_position`. -/
structure WalkResult where
  remaining : ℚ
  lots : List Lot
  p : Portfolio
  txns : List Txn
deriving Repr, DecidableEq

/-- The per-lot transaction record appended by `sell_position`
(`lot_proceeds = round(sold_shares*price,2)`,
`lot_gain_loss = round(lot_proceeds - sold_shares*investment['price'],2)`). -/
def sellTxn (ticker : String) (price : ℚ) (date : ℕ) (inv : Lot)
    (sold_shares : ℚ) : Txn :=
  { date := date, typ := "sell", ticker := ticker, shares := sold_shares,
    price := price, amount := round2 (sold_shares * price),
    gain_loss := some (round2 (round2 (sold_shares * price) -
      sold_shares * inv.price)) }

/-- The portfolio-level effect of consuming one lot in `sell_position`:
`record_gains_losses` on the lot's gain/loss, then cash credited with the
rounded proceeds (only when `sold_shares > 0`). -/
def sellStepPortfolio (price : ℚ) (inv : Lot) (sold_shares : ℚ)
    (p : Portfolio) : Portfolio :=
  let lot_proceeds := round2 (sold_shares * price)
  let lot_gain_loss := round2 (lot_proceeds - sold_shares * inv.price)
  let p1 := record_gains_losses lot_gain_loss inv.days_held p
  if 0 < sold_shares then { p1 with cash := p1.cash + lot_proceeds } else p1

/-- The `for investment in selling_queue` loop of `sell_position`: consume
demand lot by lot, mutating lots (by index), cash, the realized gain/loss
buckets and the transaction log.  First branch: `break` when demand is
exhausted; second: sell the entire lot (`sold = True`, `shares_remaining`
kept); third: partial sale (`sold_shares = round(remaining,2)`, lot
remainder rounded to 4 places, `sold` set if the remainder is zero). -/
def sellWalk (ticker : String) (price : ℚ) (date : ℕ) :
    List (ℕ × Lot) → ℚ → List Lot → Portfolio → List Txn → WalkResult
  | [], remaining, lots, p, txns => ⟨remaining, lots, p, txns⟩
  | (i, inv) :: queue, remaining, lots, p, txns =>
    if remaining ≤ 0 then ⟨remaining, lots, p, txns⟩
    else if inv.shares_remaining ≤ remaining then
      sellWalk ticker price date queue (remaining - inv.shares_remaining)
        (lots.set i { inv with sold := true })
        (sellStepPortfolio price inv inv.shares_remaining p)
        (txns ++ [sellTxn ticker price date inv inv.shares_remaining])
    else
      let rem' := round4 (inv.shares_remaining - round2 remaining)
      sellWalk ticker price date queue 0
        (lots.set i { inv with shares_remaining := rem',
                               sold := if rem' = 0 then true else inv.sold })
        (sellStepPortfolio price inv (round2 remaining) p)
        (txns ++ [sellTxn ticker price date inv (round2 remaining)])

/-- Result of `sell_position`; `ok = true` means the Python function
returns the transaction list, `ok = false` means it returns `None`. -/
structure SellResult where
  portfolio : Portfolio
  txns : List Txn
  ok : Bool
deriving Repr, DecidableEq

/-- `sell_position(portfolio, ticker, shares_to_sell, price, date,
transactions, description)`. -/
def sell_position (p : Portfolio) (ticker : String) (shares_to_sell price : ℚ)
    (date : ℕ) (txns : List Txn) : SellResult :=
  match dictGet p.holdings ticker with
  | none => ⟨p, txns, false⟩
  | some h =>
    let w := sellWalk ticker price date (sellingQueue h.investments price)
        shares_to_sell h.investments p txns
    let actual_shares_sold := shares_to_sell - w.remaining
    let h' := { h with investments := w.lots }
    if 0 < actual_shares_sold then
      let h'' : Holding :=
        { h' with shares_remaining :=
            h'.shares_remaining - actual_shares_sold }
      ⟨{ w.p with holdings := dictSet w.p.holdings ticker h'' },
       w.txns, true⟩
    else ⟨{ w.p with holdings := dictSet w.p.holdings ticker h' },
          w.txns, false⟩

/-! ## `strategies/tax_loss_harvesting.py` -/

/-- Per-ticker loop state of `track_and_manage_positions`: the portfolio
(cash, buckets), the live `holdings[ticker]['shares_remaining']`, the
transaction log and the `ticker_sold` flag. -/
structure HarvestState where
  p : Portfolio
  holdRem : ℚ
  txns : List Txn
  tickerSold : Bool
deriving Repr, DecidableEq

/-- The realized loss the harvest branch reports for a lot:
`round(sale_proceeds - cost_prorated, 2)` with
`sale_proceeds = round(shares_remaining*price, 2)` and
`cost_prorated = cost * (shares_remaining / initial_shares_purchased)`. -/
def harvestLoss (price : ℚ) (lot : Lot) : ℚ :=
  round2 (round2 (lot.shares_remaining * price) -
    lot.cost * (lot.shares_remaining / lot.initial_shares_purchased))

/-- The transaction record appended when a lot is harvested. -/
def harvestTxn (ticker : String) (price : ℚ) (date : ℕ) (lot : Lot) : Txn :=
  { date := date, typ := "sell", ticker := ticker,
    shares := lot.shares_remaining, price := price,
    amount := round2 (lot.shares_remaining * price),
    gain_loss := some (harvestLoss price lot) }

/-- The portfolio-level effect of harvesting one lot: cash credited with
the rounded proceeds, then `record_gains_losses` on the realized loss. -/
def harvestStepPortfolio (price : ℚ) (lot : Lot) (p : Portfolio) :
    Portfolio :=
  record_gains_losses (harvestLoss price lot) lot.days_held
    { p with cash := p.cash + round2 (lot.shares_remaining * price) }

/-- Body of the `for investment in holding['investments']` loop of
`track_and_manage_positions`: skip sold lots, skip (with a print)
zero-remaining lots, harvest a lot whose `return_pct` is at or below the
trigger (sell all of it, zero it, mark it sold), leave the rest alone. -/
def harvestLot (trigger price : ℚ) (ticker : String) (date : ℕ)
    (s : HarvestState) (lot : Lot) : HarvestState × Lot :=
  if lot.sold then (s, lot)
  else if lot.shares_remaining = 0 then (s, lot)
  else if lot.return_pct ≤ trigger then
    ({ p := harvestStepPortfolio price lot s.p,
       holdRem :=
         if 0 < lot.shares_remaining then s.holdRem - lot.shares_remaining
         else s.holdRem,
       txns := s.txns ++ [harvestTxn ticker price date lot],
       tickerSold := true },
     { lot with sold := true, shares_remaining := 0 })
  else (s, lot)

/-- Fold `harvestLot` over a lot list, returning the final state and the
mutated lots. -/
def harvestLots (trigger price : ℚ) (ticker : String) (date : ℕ) :
    HarvestState → List Lot → HarvestState × List Lot
  | s, [] => (s, [])
  | s, lot :: rest =>
    let r1 := harvestLot trigger price ticker date s lot
    let r2 := harvestLots trigger price ticker date r1.1 rest
    (r2.1, r1.2 :: r2.2)

/-- One iteration of the `for ticker, holding in portfolio.holdings`
loop: skip tickers with a missing (or NaN) price, otherwise scan the
lots. -/
def harvestTicker (pricesAt : String → Option ℚ) (date : ℕ) (trigger : ℚ)
    (p : Portfolio) (txns : List Txn) (soldTickers : List String)
    (entry : String × Holding) : Portfolio × List Txn × List String :=
  match pricesAt entry.1 with
  | none => (p, txns, soldTickers)
  | some price =>
    let r := harvestLots trigger price entry.1 date
        ⟨p, entry.2.shares_remaining, txns, false⟩ entry.2.investments
    let h0 := entry.2
    let h' := { h0 with
                investments := r.2,
                shares_remaining := r.1.holdRem }
    ({ r.1.p with holdings := dictSet r.1.p.holdings entry.1 h' },
     r.1.txns,
     if r.1.tickerSold then soldTickers ++ [entry.1] else soldTickers)

/-- The full ticker loop. -/
def harvestAll (pricesAt : String → Option ℚ) (date : ℕ) (trigger : ℚ) :
    List (String × Holding) → Portfolio → List Txn → List String →
    Portfolio × List Txn × List String
  | [], p, txns, st => (p, txns, st)
  | e :: rest, p, txns, st =>
    let r := harvestTicker pricesAt date trigger p txns st e
    harvestAll pricesAt date trigger rest r.1 r.2.1 r.2.2

/-- `track_and_manage_positions(portfolio, prices, date, transactions,
sell_trigger)`.  `pricesAt` is the row `prices.loc[date]` as a partial
map (`none` for a missing ticker or a NaN price).  Returns the mutated
portfolio, the transaction log and `sold_tickers`. -/
def track_and_manage_positions (p : Portfolio)
    (pricesAt : String → Option ℚ) (date : ℕ) (txns : List Txn)
    (sell_trigger : ℚ) : Portfolio × List Txn × List String :=
  harvestAll pricesAt date sell_trigger p.holdings p txns []

/-! ## `utils/rebalance.py` — `is_rebalancing_needed` -/

/-- `(month - 1) // 3 + 1`. -/
def quarterOf (m : ℕ) : ℕ := (m - 1) / 3 + 1

/-- `is_rebalancing_needed(portfolio, investment_date)`.  Returns the
Python return value (`none` models the bare `return` taken when there are
no holdings) together with the possibly-updated portfolio. -/
def is_rebalancing_needed (p : Portfolio) (investment_date : SimDate) :
    Option Bool × Portfolio :=
  if p.holdings = [] then (none, p)
  else
    let c := investment_date
    let l := p.last_rebalance_date
    let should : Bool :=
      if p.rebalance_frequency = "monthly" then
        decide (l.year < c.year ∨ (c.year = l.year ∧ l.month < c.month))
      else if p.rebalance_frequency = "quarterly" then
        decide (l.year < c.year ∨
          (c.year = l.year ∧ quarterOf l.month < quarterOf c.month))
      else if p.rebalance_frequency = "yearly" then
        decide (l.year < c.year)
      else false
    if should then
      (some true, { p with last_rebalance_date := investment_date })
    else (some false, p)

/-! ## `utils/allocation.py` — `calculate_allocation_weights` -/

/-- `calculate_allocation_weights(portfolio)`.  `none` models the `else`
branch, which prints an error and returns `None`.  `float(f"{x:.4f}")`
is rounding to 4 decimal places. -/
def calculate_allocation_weights (p : Portfolio) :
    Option (List (String × ℚ)) :=
  match p.portfolio_allocation with
  | .equal =>
    some (p.tickers.map (fun t => (t, 1 / (p.tickers.length : ℚ))))
  | .custom ws =>
    let weight_sum := (ws.map (·.2)).sum
    if 0 < weight_sum then
      some (ws.map (fun kv => (kv.1, round4 (kv.2 / weight_sum))))
    else some ws
  | .other => none

/-! ## Specification-side definitions and generic list lemmas -/

/-- The shares a lot contributes to the active total: its
`shares_remaining` if it is active (`sold = false`), else nothing. -/
def lotActive (l : Lot) : ℚ := if l.sold then 0 else l.shares_remaining

/-- Sum of `shares_remaining` over the active (`sold = false`) lots. -/
def activeShares (lots : List Lot) : ℚ :=
  ((lots.filter (fun l => !l.sold)).map (fun l => l.shares_remaining)).sum

/-- The ledger invariant of the spec:
`Holding.shares_remaining = sum(lot.shares_remaining for active lots)`. -/
def holdingInv (h : Holding) : Prop :=
  h.shares_remaining = activeShares h.investments

/-- The ledger invariant, for every ticker of a portfolio. -/
def portfolioInv (p : Portfolio) : Prop := ∀ e ∈ p.holdings, holdingInv e.2

/-! ## Rounding lemmas -/

theorem rndHalfEven_intCast (z : ℤ) : rndHalfEven (z : ℚ) = z := by
  unfold rndHalfEven
  rw [Int.floor_intCast]
  norm_num

theorem decMul_iff {n : ℕ} {x : ℚ} :
    decMul n x ↔ ∃ z : ℤ, x * 10 ^ n = (z : ℚ) := by
  unfold decMul
  constructor
  · intro h
    exact ⟨(x * 10 ^ n).num, ((Rat.den_eq_one_iff _).mp h).symm⟩
  · rintro ⟨z, hz⟩
    rw [hz]
    exact Rat.den_intCast z

theorem roundTo_eq_self {n : ℕ} {x : ℚ} (h : decMul n x) : roundTo n x = x := by
  obtain ⟨z, hz⟩ := decMul_iff.mp h
  unfold roundTo
  rw [hz, rndHalfEven_intCast, div_eq_iff (by positivity : ((10 : ℚ) ^ n) ≠ 0)]
  exact hz.symm

theorem abs_rndHalfEven_sub (x : ℚ) : |(rndHalfEven x : ℚ) - x| ≤ 1/2 := by
  have h1 : (⌊x⌋ : ℚ) ≤ x := Int.floor_le x
  have h2 : x < ⌊x⌋ + 1 := Int.lt_floor_add_one x
  unfold rndHalfEven
  split_ifs with hc1 hc2 hc3 <;>
    · rw [abs_le]
      constructor <;> push_cast <;> linarith

theorem abs_roundTo_sub (n : ℕ) (x : ℚ) :
    |roundTo n x - x| ≤ 1 / (2 * 10 ^ n) := by
  have h := abs_rndHalfEven_sub (x * 10 ^ n)
  have hp : (0:ℚ) < 10 ^ n := by positivity
  have heq : roundTo n x - x = ((rndHalfEven (x * 10 ^ n) : ℚ) - x * 10 ^ n) / 10 ^ n := by
    unfold roundTo
    field_simp
    ring
  rw [heq, abs_div, abs_of_pos hp]
  rw [div_le_div_iff₀ hp (by positivity)]
  calc |(rndHalfEven (x * 10 ^ n) : ℚ) - x * 10 ^ n| * (2 * 10 ^ n)
      ≤ (1/2) * (2 * 10 ^ n) := by
        apply mul_le_mul_of_nonneg_right h (by positivity)
    _ = 1 * 10 ^ n := by ring

theorem decMul.sub {n : ℕ} {x y : ℚ} (hx : decMul n x) (hy : decMul n y) :
    decMul n (x - y) := by
  obtain ⟨a, ha⟩ := decMul_iff.mp hx
  obtain ⟨b, hb⟩ := decMul_iff.mp hy
  refine decMul_iff.mpr ⟨a - b, ?_⟩
  push_cast
  rw [← ha, ← hb]
  ring

theorem decMul.two_four {x : ℚ} (hx : decMul 2 x) : decMul 4 x := by
  obtain ⟨a, ha⟩ := decMul_iff.mp hx
  refine decMul_iff.mpr ⟨a * 100, ?_⟩
  push_cast
  rw [← ha]
  ring

theorem round2_eq_self {x : ℚ} (h : decMul 2 x) : round2 x = x :=
  roundTo_eq_self h

theorem round4_eq_self {x : ℚ} (h : decMul 4 x) : round4 x = x :=
  roundTo_eq_self h

theorem list_sum_map_div {α : Type} (l : List α) (f : α → ℚ) (c : ℚ) :
    (l.map (fun a => f a / c)).sum = (l.map f).sum / c := by
  induction l with
  | nil => simp
  | cons a t ih => simp [ih, add_div]

theorem abs_sum_map_round4_sub {α : Type} (l : List α) (f : α → ℚ) :
    |(l.map (fun a => round4 (f a))).sum - (l.map f).sum| ≤
      l.length * (1/20000) := by
  induction l with
  | nil => simp
  | cons a t ih =>
    simp only [List.map_cons, List.sum_cons, List.length_cons]
    have h := abs_roundTo_sub 4 (f a)
    have h2 : (1:ℚ) / (2 * 10 ^ 4) = 1/20000 := by norm_num
    rw [h2] at h
    calc |round4 (f a) + (t.map (fun a => round4 (f a))).sum -
            ((f a) + (t.map f).sum)|
        = |(round4 (f a) - f a) +
            ((t.map (fun a => round4 (f a))).sum - (t.map f).sum)| := by
          ring_nf
      _ ≤ |round4 (f a) - f a| +
            |(t.map (fun a => round4 (f a))).sum - (t.map f).sum| :=
          abs_add _ _
      _ ≤ 1/20000 + t.length * (1/20000) := add_le_add h ih
      _ = ((t.length + 1 : ℕ) : ℚ) * (1/20000) := by push_cast; ring


example : round2 (1/8) = 12/100 := by norm_num [round2, roundTo, rndHalfEven]
example : round2 (999/1000) = 1 := by norm_num [round2, roundTo, rndHalfEven]
example : round4 ((9995/10000 : ℚ) - 1) = -(5/10000) := by
  norm_num [round4, roundTo, rndHalfEven]
example : decMul 2 (25/100) := by norm_num [decMul]

/-- A minimal portfolio for concrete evaluations: given cash and holdings,
all other fields are inert defaults. -/
def mkPortfolio (cash : ℚ) (holdings : List (String × Holding)) : Portfolio :=
  { cash := cash, holdings := holdings,
    short_term_realized_gains := 0, long_term_realized_gains := 0,
    short_term_realized_losses := 0, long_term_realized_losses := 0,
    rebalance_frequency := "monthly", last_rebalance_date := ⟨2020, 1⟩,
    portfolio_allocation := .equal, tickers := [] }

/-! ## C4 — buys never push cash below zero -/

/-- C4 (counterexample): with `cash = 0.999` (not a whole-cent amount) and
`price = 1000`, the requested cost exceeds cash, so `buy_position` clamps
`shares_to_buy` to `cash / price`; but it then deducts
`round(shares × price, 2) = round(0.999, 2) = 1.00 > cash`, leaving the
cash balance negative.  This refutes the claim that a buy never deducts
more than the cash available at entry. -/
theorem C4_counterexample :
    0 ≤ (mkPortfolio (999/1000) []).cash ∧ (0:ℚ) < 1000 ∧
      (buy_position (mkPortfolio (999/1000) []) "A" 1 1000 0 []).1.cash < 0 := by
  refine ⟨by norm_num [mkPortfolio], by norm_num, ?_⟩
  norm_num [buy_position, mkPortfolio, dictGet, dictSet, emptyHolding,
    round2, roundTo, rndHalfEven]

/-- C4 (amended): if the entry cash balance is a non-negative whole-cent
amount and the price is positive, `buy_position` never spends more than
the available cash, so the cash balance stays non-negative. -/
theorem C4_buy_cash_nonneg (p : Portfolio) (ticker : String)
    (shares_to_buy price : ℚ) (date : ℕ) (txns : List Txn)
    (hc : 0 ≤ p.cash) (hcent : decMul 2 p.cash) (hp : 0 < price) :
    0 ≤ (buy_position p ticker shares_to_buy price date txns).1.cash := by
  have hdiv : p.cash / price * price = p.cash :=
    div_mul_cancel₀ _ (ne_of_gt hp)
  simp only [buy_position]
  split_ifs with h1 h2 h2 <;> simp only <;> [skip; exact hc; skip; exact hc]
  · rw [hdiv, round2_eq_self hcent]
    simp
  · linarith [h2]

/-- C4 witness: a concrete in-budget buy. -/
theorem C4_witness :
    0 ≤ (buy_position (mkPortfolio 5 []) "A" 1 2 0 []).1.cash :=
  C4_buy_cash_nonneg _ "A" 1 2 0 [] (by norm_num [mkPortfolio])
    (by norm_num [mkPortfolio, decMul]) (by norm_num)

/-! ## C7 — the rebalancing cadence check -/

/-- C7 (counterexample): on a portfolio with no holdings the function
takes the early `return` (modelled as `none`) and does not advance
`last_rebalance_date`, even though the calendar month did advance for the
`monthly` frequency, so it does not "return true exactly when the
calendar period advanced". -/
theorem C7_counterexample :
    (mkPortfolio 0 []).rebalance_frequency = "monthly" ∧
    (mkPortfolio 0 []).last_rebalance_date = ⟨2020, 1⟩ ∧
    is_rebalancing_needed (mkPortfolio 0 []) ⟨2020, 2⟩ =
      (none, mkPortfolio 0 []) := by
  refine ⟨rfl, rfl, ?_⟩
  norm_num [is_rebalancing_needed, mkPortfolio]

/-- C7 (amended): provided the portfolio has at least one holdings entry,
`is_rebalancing_needed` returns `True` exactly when the calendar period
advanced past `last_rebalance_date` for the configured frequency —
monthly: `(year, month)` strictly increased lexicographically; quarterly:
`(year, quarter)` strictly increased; yearly: `year` strictly increased —
advancing `last_rebalance_date` to `investment_date` exactly when it
returns `True`.  (With no holdings it returns `None` and changes
nothing.) -/
theorem C7_cadence (p : Portfolio) (d : SimDate) (hne : p.holdings ≠ []) :
    (p.rebalance_frequency = "monthly" →
      is_rebalancing_needed p d =
        (if p.last_rebalance_date.year < d.year ∨
            (d.year = p.last_rebalance_date.year ∧
              p.last_rebalance_date.month < d.month)
         then (some true, { p with last_rebalance_date := d })
         else (some false, p))) ∧
    (p.rebalance_frequency = "quarterly" →
      is_rebalancing_needed p d =
        (if p.last_rebalance_date.year < d.year ∨
            (d.year = p.last_rebalance_date.year ∧
              quarterOf p.last_rebalance_date.month < quarterOf d.month)
         then (some true, { p with last_rebalance_date := d })
         else (some false, p))) ∧
    (p.rebalance_frequency = "yearly" →
      is_rebalancing_needed p d =
        (if p.last_rebalance_date.year < d.year
         then (some true, { p with last_rebalance_date := d })
         else (some false, p))) := by
  refine ⟨fun hf => ?_, fun hf => ?_, fun hf => ?_⟩ <;>
    simp only [is_rebalancing_needed, hf, if_neg hne] <;>
    norm_num <;>
    split_ifs <;> simp_all

/-- C7 witness: one holding, monthly frequency, month advanced from
2020-01 to 2020-02: the check fires and advances the date. -/
theorem C7_witness :
    is_rebalancing_needed (mkPortfolio 0 [("A", emptyHolding)]) ⟨2020, 2⟩ =
      (some true,
        { mkPortfolio 0 [("A", emptyHolding)] with
            last_rebalance_date := ⟨2020, 2⟩ }) := by
  have h := (C7_cadence (mkPortfolio 0 [("A", emptyHolding)]) ⟨2020, 2⟩
    (by simp [mkPortfolio])).1 (by simp [mkPortfolio])
  rw [h]
  norm_num [mkPortfolio]

/-! ## C8 — normalization of custom allocation weights -/

/-- A portfolio whose allocation setting is the given custom mapping. -/
def allocP (ws : List (String × ℚ)) : Portfolio :=
  { mkPortfolio 0 [] with portfolio_allocation := .custom ws }

/-- Seven tickers with equal raw weight 1. -/
def ws7 : List (String × ℚ) :=
  [("a", 1), ("b", 1), ("c", 1), ("d", 1), ("e", 1), ("f", 1), ("g", 1)]

theorem round4_one_seventh : round4 ((1:ℚ)/7) = 1429/10000 := by
  have hfl : ⌊((1:ℚ)/7 * 10 ^ 4)⌋ = 1428 := by norm_num
  rw [round4, roundTo, rndHalfEven, hfl]
  norm_num

/-- C8 (counterexample): with seven equal raw weights the normalized
weights are `round(1/7, 4) = 0.1429` each, so they sum to `1.0003`,
which misses 1 by `0.0003 > 0.0001`.  The "±0.0001 regardless of input"
part of the claim is false: the per-entry rounding errors accumulate. -/
theorem C8_counterexample :
    0 < (ws7.map (fun kv => kv.2)).sum ∧ ws7 ≠ [] ∧
    (((calculate_allocation_weights (allocP ws7)).getD []).map
        (fun kv => kv.2)).sum = 10003/10000 ∧
    ¬ |(10003/10000 : ℚ) - 1| ≤ 1/10000 := by
  refine ⟨by norm_num [ws7], by simp [ws7], ?_, ?_⟩
  · norm_num [calculate_allocation_weights, allocP, mkPortfolio, ws7,
      round4_one_seventh]
  · rw [show (10003/10000 : ℚ) - 1 = 3/10000 by norm_num,
      abs_of_pos (by norm_num : (0:ℚ) < 3/10000)]
    norm_num

/-- C8 (amended): for a custom allocation mapping with positive total raw
weight, every returned weight is the raw weight divided by the total and
rounded to 4 decimal places, and the returned weights sum to 1 within
`n × 0.00005` where `n` is the number of entries (each rounding
contributes at most half a unit in the fourth decimal place; the fixed
±0.0001 tolerance only holds for small mappings). -/
theorem C8_custom_weights (p : Portfolio) (ws : List (String × ℚ))
    (hw : p.portfolio_allocation = .custom ws)
    (hS : 0 < (ws.map (fun kv => kv.2)).sum) :
    calculate_allocation_weights p =
      some (ws.map (fun kv =>
        (kv.1, round4 (kv.2 / (ws.map (fun kv => kv.2)).sum)))) ∧
    |((ws.map (fun kv =>
        (kv.1, round4 (kv.2 / (ws.map (fun kv => kv.2)).sum)))).map
          (fun kv => kv.2)).sum - 1| ≤ ws.length * (1/20000) := by
  constructor
  · simp only [calculate_allocation_weights, hw]
    rw [if_pos hS]
  · rw [List.map_map]
    have hrw : ((fun kv : String × ℚ => kv.2) ∘ (fun kv : String × ℚ =>
        (kv.1, round4 (kv.2 / (ws.map (fun kv => kv.2)).sum)))) =
        fun kv : String × ℚ =>
          round4 (kv.2 / (ws.map (fun kv => kv.2)).sum) := rfl
    rw [hrw]
    have hone : (ws.map (fun kv : String × ℚ =>
        kv.2 / (ws.map (fun kv => kv.2)).sum)).sum = 1 := by
      rw [list_sum_map_div]
      exact div_self (ne_of_gt hS)
    have := abs_sum_map_round4_sub ws
      (fun kv : String × ℚ => kv.2 / (ws.map (fun kv => kv.2)).sum)
    rw [hone] at this
    exact this

/-- C8 witness: two raw weights 3 and 1 normalize to 0.75 and 0.25. -/
theorem C8_witness :
    calculate_allocation_weights (allocP [("a", 3), ("b", 1)]) =
      some [("a", round4 (3 / 4)), ("b", round4 (1 / 4))] ∧
    |(([("a", round4 ((3:ℚ) / 4)), ("b", round4 ((1:ℚ) / 4))]).map
        (fun kv => kv.2)).sum - 1| ≤ 2 * (1/20000) := by
  have h := C8_custom_weights (allocP [("a", 3), ("b", 1)])
    [("a", 3), ("b", 1)] rfl (by norm_num)
  norm_num at h ⊢
  exact h

/-! ## C9 — configuration errors -/

/-- A portfolio with one holding and an unsupported rebalance
frequency. -/
def badFreqP : Portfolio :=
  { mkPortfolio 0 [("A", emptyHolding)] with
      rebalance_frequency := "weekly" }

/-- C9 (counterexample): with an unsupported rebalance frequency
(`"weekly"`), `is_rebalancing_needed` does not fail: even though the
calendar year advanced from 2020 to 2025, it silently returns `False`
and leaves the portfolio untouched, so the run continues and simply
never rebalances.  The claim that an unsupported frequency is "fatal to
the run and surfaced immediately" is false. -/
theorem C9_counterexample :
    badFreqP.rebalance_frequency ∉ ["monthly", "quarterly", "yearly"] ∧
    badFreqP.last_rebalance_date.year < 2025 ∧
    is_rebalancing_needed badFreqP ⟨2025, 6⟩ = (some false, badFreqP) := by
  refine ⟨by decide, by norm_num [badFreqP, mkPortfolio], ?_⟩
  norm_num [is_rebalancing_needed, badFreqP, mkPortfolio] <;> decide

/-- C9 (amended): an unrecognized allocation mode is surfaced — the
allocation engine returns no weight mapping (Python `None`), which every
caller immediately dereferences, aborting the run.  An unsupported
rebalance frequency, however, is **not** fatal: the cadence check
silently answers "no rebalance needed" and the simulation continues. -/
theorem C9_config_errors (p : Portfolio) (d : SimDate) :
    (p.portfolio_allocation = .other →
      calculate_allocation_weights p = none) ∧
    (p.holdings ≠ [] →
      p.rebalance_frequency ≠ "monthly" →
      p.rebalance_frequency ≠ "quarterly" →
      p.rebalance_frequency ≠ "yearly" →
      is_rebalancing_needed p d = (some false, p)) := by
  constructor
  · intro h
    simp [calculate_allocation_weights, h]
  · intro hne h1 h2 h3
    simp [is_rebalancing_needed, if_neg hne, h1, h2, h3]

/-- A portfolio with both configuration problems at once. -/
def badCfgP : Portfolio :=
  { mkPortfolio 0 [("A", emptyHolding)] with
      portfolio_allocation := .other, rebalance_frequency := "weekly" }

/-- C9 witness. -/
theorem C9_witness :
    calculate_allocation_weights badCfgP = none ∧
    is_rebalancing_needed badCfgP ⟨2025, 6⟩ = (some false, badCfgP) := by
  have h := C9_config_errors badCfgP ⟨2025, 6⟩
  exact ⟨h.1 rfl,
    h.2 (by simp [badCfgP, mkPortfolio]) (by simp [badCfgP, mkPortfolio])
      (by simp [badCfgP, mkPortfolio]) (by simp [badCfgP, mkPortfolio])⟩

/-! ## Helper lemmas: association lists, indexing, active shares -/

theorem dictGet_mem {α : Type} :
    ∀ {l : List (String × α)} {k : String} {v : α},
      dictGet l k = some v → (k, v) ∈ l
  | [], k, v, h => by simp [dictGet] at h
  | (k', v') :: t, k, v, h => by
    rw [dictGet] at h
    by_cases hk : k' = k
    · rw [if_pos hk] at h
      simp_all
    · exact List.mem_cons_of_mem _ (dictGet_mem (by rwa [if_neg hk] at h))

theorem dictSet_mem {α : Type} :
    ∀ {l : List (String × α)} {k : String} {v : α} {e : String × α},
      e ∈ dictSet l k v → e = (k, v) ∨ e ∈ l
  | [], k, v, e, h => by simpa [dictSet] using h
  | (k', v') :: t, k, v, e, h => by
    rw [dictSet] at h
    by_cases hk : k' = k
    · rw [if_pos hk] at h
      rcases List.mem_cons.mp h with h1 | h1
      · exact Or.inl h1
      · exact Or.inr (List.mem_cons_of_mem _ h1)
    · rw [if_neg hk] at h
      rcases List.mem_cons.mp h with h1 | h1
      · exact Or.inr (h1 ▸ List.mem_cons_self _ _)
      · rcases dictSet_mem h1 with h2 | h2
        · exact Or.inl h2
        · exact Or.inr (List.mem_cons_of_mem _ h2)

theorem dictGet_dictSet_self {α : Type} :
    ∀ (l : List (String × α)) (k : String) (v : α),
      dictGet (dictSet l k v) k = some v
  | [], k, v => by simp [dictGet, dictSet]
  | (k', v') :: t, k, v => by
    rw [dictSet]
    by_cases hk : k' = k
    · rw [if_pos hk, dictGet, if_pos rfl]
    · rw [if_neg hk, dictGet, if_neg hk]
      exact dictGet_dictSet_self t k v

theorem dictGet_dictSet_ne {α : Type} :
    ∀ (l : List (String × α)) {k k' : String} (v : α), k ≠ k' →
      dictGet (dictSet l k v) k' = dictGet l k'
  | [], k, k', v, h => by simp [dictGet, dictSet, h]
  | (k0, v0) :: t, k, k', v, h => by
    rw [dictSet]
    by_cases hk : k0 = k
    · rw [if_pos hk, dictGet, if_neg h, dictGet, if_neg (hk ▸ h)]
    · rw [if_neg hk, dictGet, dictGet]
      by_cases hk' : k0 = k'
      · rw [if_pos hk', if_pos hk']
      · rw [if_neg hk', if_neg hk']
        exact dictGet_dictSet_ne t v h

theorem dictSet_of_dictGet {α : Type} :
    ∀ {l : List (String × α)} {k : String} {v : α},
      dictGet l k = some v → dictSet l k v = l
  | [], k, v, h => by simp [dictGet] at h
  | (k', v') :: t, k, v, h => by
    rw [dictGet] at h
    rw [dictSet]
    by_cases hk : k' = k
    · rw [if_pos hk] at h
      rw [if_pos hk, hk]
      simp_all
    · rw [if_neg hk] at h
      rw [if_neg hk, dictSet_of_dictGet h]

theorem set_getElem?_self {α : Type} :
    ∀ (l : List α) (i : ℕ) (a b : α),
      l[i]? = some a → (l.set i b)[i]? = some b
  | [], i, a, b, h => by simp at h
  | x :: t, 0, a, b, h => by simp
  | x :: t, i+1, a, b, h => by
    simpa using set_getElem?_self t i a b (by simpa using h)

theorem set_getElem?_ne {α : Type} :
    ∀ (l : List α) (i j : ℕ) (b : α), i ≠ j → (l.set i b)[j]? = l[j]?
  | [], _, _, _, _ => by simp
  | x :: t, 0, 0, b, h => absurd rfl h
  | x :: t, 0, j+1, b, h => by simp [List.set]
  | x :: t, i+1, 0, b, h => by simp [List.set]
  | x :: t, i+1, j+1, b, h => by
    simpa [List.set] using set_getElem?_ne t i j b (fun he => h (by rw [he]))

theorem set_of_getElem? {α : Type} :
    ∀ (l : List α) (i : ℕ) (a : α), l[i]? = some a → l.set i a = l
  | [], i, a, h => by simp at h
  | x :: t, 0, a, h => by simp_all
  | x :: t, i+1, a, h => by
    simp only [List.set, List.cons.injEq, true_and]
    exact set_of_getElem? t i a (by simpa using h)

theorem activeShares_nil : activeShares [] = 0 := rfl

theorem activeShares_cons (x : Lot) (t : List Lot) :
    activeShares (x :: t) = lotActive x + activeShares t := by
  simp only [activeShares, lotActive, List.filter_cons]
  cases hx : x.sold <;> simp

theorem activeShares_append (l1 l2 : List Lot) :
    activeShares (l1 ++ l2) = activeShares l1 + activeShares l2 := by
  simp [activeShares, List.filter_append]

theorem activeShares_set :
    ∀ (lots : List Lot) (i : ℕ) (a b : Lot), lots[i]? = some a →
      activeShares (lots.set i b) =
        activeShares lots - lotActive a + lotActive b
  | [], i, a, b, h => by simp at h
  | x :: t, 0, a, b, h => by
    obtain rfl : x = a := by simpa using h
    simp only [List.set, activeShares_cons]
    ring
  | x :: t, i+1, a, b, h => by
    have := activeShares_set t i a b (by simpa using h)
    simp only [List.set, activeShares_cons, this]
    ring

theorem idxFrom_getElem? :
    ∀ (lots : List Lot) (n : ℕ) (e : ℕ × Lot), e ∈ idxFrom n lots →
      n ≤ e.1 ∧ lots[e.1 - n]? = some e.2
  | [], n, e, h => by simp [idxFrom] at h
  | l :: t, n, e, h => by
    rw [idxFrom] at h
    rcases List.mem_cons.mp h with h1 | h1
    · subst h1
      simp
    · obtain ⟨hge, hget⟩ := idxFrom_getElem? t (n+1) e h1
      refine ⟨le_trans (Nat.le_succ n) hge, ?_⟩
      have : e.1 - n = (e.1 - (n+1)) + 1 := by omega
      rw [this, List.getElem?_cons_succ]
      exact hget

theorem idxFrom_fst_nodup :
    ∀ (lots : List Lot) (n : ℕ), ((idxFrom n lots).map Prod.fst).Nodup
  | [], n => by simp [idxFrom]
  | l :: t, n => by
    rw [idxFrom, List.map_cons, List.nodup_cons]
    refine ⟨?_, idxFrom_fst_nodup t (n+1)⟩
    intro hmem
    obtain ⟨e, he, hfst⟩ := List.mem_map.mp hmem
    have := (idxFrom_getElem? t (n+1) e he).1
    omega

theorem idxFrom_filter_map_snd :
    ∀ (lots : List Lot) (n : ℕ),
      ((idxFrom n lots).filter (fun e => !e.2.sold)).map Prod.snd =
        lots.filter (fun l => !l.sold)
  | [], n => by simp [idxFrom]
  | l :: t, n => by
    rw [idxFrom]
    simp only [List.filter_cons]
    cases hl : l.sold <;>
      simp [idxFrom_filter_map_snd t (n+1)]

/-! ## Helper lemmas: the sell queue -/

theorem sellingQueue_perm (lots : List Lot) (price : ℚ) :
    List.Perm (sellingQueue lots price)
      ((idxFrom 0 lots).filter (fun e => !e.2.sold)) := by
  set active := (idxFrom 0 lots).filter (fun e => !e.2.sold) with hactive
  have hq : sellingQueue lots price =
      List.insertionSort (fun a b : ℕ × Lot => b.2.price ≤ a.2.price)
        (active.filter (fun e => decide (price < e.2.price))) ++
      List.insertionSort (fun a b : ℕ × Lot => a.2.date ≤ b.2.date)
        (active.filter (fun e => decide (e.2.price ≤ price))) := rfl
  rw [hq]
  have hgain : active.filter (fun e => decide (e.2.price ≤ price)) =
      active.filter (fun e => !decide (price < e.2.price)) := by
    apply List.filter_congr
    intro x _
    simp [← decide_not, not_lt]
  refine List.Perm.trans ?_
    (List.filter_append_perm (fun e => decide (price < e.2.price)) active)
  rw [hgain]
  exact (List.perm_insertionSort _ _).append (List.perm_insertionSort _ _)

theorem sellingQueue_mem {lots : List Lot} {price : ℚ} {e : ℕ × Lot}
    (h : e ∈ sellingQueue lots price) :
    e ∈ idxFrom 0 lots ∧ e.2.sold = false := by
  have := (sellingQueue_perm lots price).subset h
  have h2 := List.mem_filter.mp this
  exact ⟨h2.1, by simpa using h2.2⟩

theorem sellingQueue_getElem? {lots : List Lot} {price : ℚ} {e : ℕ × Lot}
    (h : e ∈ sellingQueue lots price) : lots[e.1]? = some e.2 := by
  have := (idxFrom_getElem? lots 0 e (sellingQueue_mem h).1).2
  simpa using this

theorem sellingQueue_fst_nodup (lots : List Lot) (price : ℚ) :
    ((sellingQueue lots price).map Prod.fst).Nodup := by
  have hperm := (sellingQueue_perm lots price).map Prod.fst
  rw [hperm.nodup_iff]
  exact ((idxFrom_fst_nodup lots 0).sublist
    ((List.filter_sublist _).map Prod.fst))

theorem sellingQueue_rem_sum (lots : List Lot) (price : ℚ) :
    ((sellingQueue lots price).map (fun e => e.2.shares_remaining)).sum =
      activeShares lots := by
  have hperm := (sellingQueue_perm lots price).map
    (fun e : ℕ × Lot => e.2.shares_remaining)
  rw [hperm.sum_eq]
  have : ((idxFrom 0 lots).filter (fun e => !e.2.sold)).map
      (fun e : ℕ × Lot => e.2.shares_remaining) =
      (((idxFrom 0 lots).filter (fun e => !e.2.sold)).map Prod.snd).map
        (fun l => l.shares_remaining) := by
    rw [List.map_map]
    rfl
  rw [this, idxFrom_filter_map_snd]
  rfl

/-! ## Helper lemmas: the sell walk -/

theorem record_gains_losses_cash (g : ℚ) (d : ℕ) (p : Portfolio) :
    (record_gains_losses g d p).cash = p.cash := by
  rw [record_gains_losses]
  split_ifs <;> rfl

theorem record_gains_losses_holdings (g : ℚ) (d : ℕ) (p : Portfolio) :
    (record_gains_losses g d p).holdings = p.holdings := by
  rw [record_gains_losses]
  split_ifs <;> rfl

theorem sellStepPortfolio_holdings (price : ℚ) (inv : Lot) (s : ℚ)
    (p : Portfolio) : (sellStepPortfolio price inv s p).holdings =
      p.holdings := by
  rw [sellStepPortfolio]
  split_ifs <;> simp [record_gains_losses_holdings]

theorem sellWalk_nil (ticker : String) (price : ℚ) (date : ℕ) (rts : ℚ)
    (lots : List Lot) (p : Portfolio) (txns : List Txn) :
    sellWalk ticker price date [] rts lots p txns = ⟨rts, lots, p, txns⟩ :=
  rfl

theorem sellWalk_stop {ticker : String} {price : ℚ} {date : ℕ}
    (q : List (ℕ × Lot)) {rts : ℚ} (lots : List Lot) (p : Portfolio)
    (txns : List Txn) (h : rts ≤ 0) :
    sellWalk ticker price date q rts lots p txns = ⟨rts, lots, p, txns⟩ := by
  cases q with
  | nil => rfl
  | cons e qt =>
    obtain ⟨i, inv⟩ := e
    rw [sellWalk, if_pos h]

theorem sellWalk_cons_full {ticker : String} {price : ℚ} {date : ℕ}
    {i : ℕ} {inv : Lot} {qt : List (ℕ × Lot)} {rts : ℚ} {lots : List Lot}
    {p : Portfolio} {txns : List Txn} (hstop : ¬ rts ≤ 0)
    (hfull : inv.shares_remaining ≤ rts) :
    sellWalk ticker price date ((i, inv) :: qt) rts lots p txns =
      sellWalk ticker price date qt (rts - inv.shares_remaining)
        (lots.set i { inv with sold := true })
        (sellStepPortfolio price inv inv.shares_remaining p)
        (txns ++ [sellTxn ticker price date inv inv.shares_remaining]) := by
  rw [sellWalk, if_neg hstop, if_pos hfull]

theorem sellWalk_cons_part {ticker : String} {price : ℚ} {date : ℕ}
    {i : ℕ} {inv : Lot} {qt : List (ℕ × Lot)} {rts : ℚ} {lots : List Lot}
    {p : Portfolio} {txns : List Txn} (hstop : ¬ rts ≤ 0)
    (hfull : ¬ inv.shares_remaining ≤ rts) :
    sellWalk ticker price date ((i, inv) :: qt) rts lots p txns =
      sellWalk ticker price date qt 0
        (lots.set i { inv with
          shares_remaining := round4 (inv.shares_remaining - round2 rts),
          sold := if round4 (inv.shares_remaining - round2 rts) = 0 then
            true else inv.sold })
        (sellStepPortfolio price inv (round2 rts) p)
        (txns ++ [sellTxn ticker price date inv (round2 rts)]) := by
  rw [sellWalk, if_neg hstop, if_neg hfull]

theorem sellWalk_holdings (ticker : String) (price : ℚ) (date : ℕ) :
    ∀ (q : List (ℕ × Lot)) (rts : ℚ) (lots : List Lot) (p : Portfolio)
      (txns : List Txn),
      (sellWalk ticker price date q rts lots p txns).p.holdings = p.holdings
  | [], rts, lots, p, txns => rfl
  | (i, inv) :: qt, rts, lots, p, txns => by
    by_cases hstop : rts ≤ 0
    · rw [sellWalk_stop _ _ _ _ hstop]
    by_cases hfull : inv.shares_remaining ≤ rts
    · rw [sellWalk_cons_full hstop hfull,
        sellWalk_holdings ticker price date qt _ _ _ _,
        sellStepPortfolio_holdings]
    · rw [sellWalk_cons_part hstop hfull,
        sellWalk_holdings ticker price date qt _ _ _ _,
        sellStepPortfolio_holdings]

theorem sellWalk_remaining_le (ticker : String) (price : ℚ) (date : ℕ) :
    ∀ (q : List (ℕ × Lot)) (rts : ℚ) (lots : List Lot) (p : Portfolio)
      (txns : List Txn), (∀ e ∈ q, 0 ≤ e.2.shares_remaining) →
      (sellWalk ticker price date q rts lots p txns).remaining ≤ rts
  | [], rts, lots, p, txns, h => le_refl _
  | (i, inv) :: qt, rts, lots, p, txns, h => by
    by_cases hstop : rts ≤ 0
    · rw [sellWalk_stop _ _ _ _ hstop]
    by_cases hfull : inv.shares_remaining ≤ rts
    · rw [sellWalk_cons_full hstop hfull]
      have hrem := h (i, inv) (List.mem_cons_self _ _)
      have := sellWalk_remaining_le ticker price date qt
        (rts - inv.shares_remaining) (lots.set i { inv with sold := true })
        (sellStepPortfolio price inv inv.shares_remaining p)
        (txns ++ [sellTxn ticker price date inv inv.shares_remaining])
        (fun e he => h e (List.mem_cons_of_mem _ he))
      simp only at hrem ⊢
      linarith
    · rw [sellWalk_cons_part hstop hfull]
      have := sellWalk_remaining_le ticker price date qt 0
        (lots.set i { inv with
          shares_remaining := round4 (inv.shares_remaining - round2 rts),
          sold := if round4 (inv.shares_remaining - round2 rts) = 0 then
            true else inv.sold })
        (sellStepPortfolio price inv (round2 rts) p)
        (txns ++ [sellTxn ticker price date inv (round2 rts)])
        (fun e he => h e (List.mem_cons_of_mem _ he))
      linarith

theorem sellWalk_remaining_lt {ticker : String} {price : ℚ} {date : ℕ}
    {i : ℕ} {inv : Lot} {qt : List (ℕ × Lot)} {rts : ℚ} {lots : List Lot}
    {p : Portfolio} {txns : List Txn} (hpos : 0 < rts)
    (h : ∀ e ∈ (i, inv) :: qt, 0 < e.2.shares_remaining) :
    (sellWalk ticker price date ((i, inv) :: qt) rts lots p txns).remaining
      < rts := by
  have hstop : ¬ rts ≤ 0 := not_le.mpr hpos
  have hnn : ∀ e ∈ qt, 0 ≤ e.2.shares_remaining :=
    fun e he => le_of_lt (h e (List.mem_cons_of_mem _ he))
  have hrem := h (i, inv) (List.mem_cons_self _ _)
  by_cases hfull : inv.shares_remaining ≤ rts
  · rw [sellWalk_cons_full hstop hfull]
    have := sellWalk_remaining_le ticker price date qt
      (rts - inv.shares_remaining) (lots.set i { inv with sold := true })
      (sellStepPortfolio price inv inv.shares_remaining p)
      (txns ++ [sellTxn ticker price date inv inv.shares_remaining]) hnn
    simp only at hrem ⊢
    linarith
  · rw [sellWalk_cons_part hstop hfull]
    have := sellWalk_remaining_le ticker price date qt 0
      (lots.set i { inv with
        shares_remaining := round4 (inv.shares_remaining - round2 rts),
        sold := if round4 (inv.shares_remaining - round2 rts) = 0 then
          true else inv.sold })
      (sellStepPortfolio price inv (round2 rts) p)
      (txns ++ [sellTxn ticker price date inv (round2 rts)]) hnn
    linarith

theorem sellWalk_untouched (ticker : String) (price : ℚ) (date : ℕ) :
    ∀ (q : List (ℕ × Lot)) (rts : ℚ) (lots : List Lot) (p : Portfolio)
      (txns : List Txn) (j : ℕ), j ∉ q.map Prod.fst →
      (sellWalk ticker price date q rts lots p txns).lots[j]? = lots[j]?
  | [], rts, lots, p, txns, j, _ => rfl
  | (i, inv) :: qt, rts, lots, p, txns, j, hj => by
    have hji : i ≠ j := by
      intro h
      exact hj (by simp [← h])
    have hj' : j ∉ qt.map Prod.fst := fun h => hj (by simp [h])
    by_cases hstop : rts ≤ 0
    · rw [sellWalk_stop _ _ _ _ hstop]
    by_cases hfull : inv.shares_remaining ≤ rts
    · rw [sellWalk_cons_full hstop hfull,
        sellWalk_untouched ticker price date qt _ _ _ _ j hj',
        set_getElem?_ne _ _ _ _ hji]
    · rw [sellWalk_cons_part hstop hfull,
        sellWalk_untouched ticker price date qt _ _ _ _ j hj',
        set_getElem?_ne _ _ _ _ hji]

/-- How one call of `sell_position` can change a single lot: untouched,
fully consumed (`sold := true`, shares kept), or partially consumed
(shares replaced, `sold` set exactly if the remainder is zero).  The
lot's other fields never change. -/
def lotSellStep (pre post : Lot) : Prop :=
  post = pre ∨ post = { pre with sold := true } ∨
  ∃ r', post = { pre with shares_remaining := r', sold := decide (r' = 0) }

theorem sellWalk_lot_step (ticker : String) (price : ℚ) (date : ℕ) :
    ∀ (q : List (ℕ × Lot)) (rts : ℚ) (lots : List Lot) (p : Portfolio)
      (txns : List Txn),
      (∀ e ∈ q, lots[e.1]? = some e.2) →
      (∀ e ∈ q, e.2.sold = false) →
      (q.map Prod.fst).Nodup →
      ∀ e ∈ q, ∃ post,
        (sellWalk ticker price date q rts lots p txns).lots[e.1]? =
          some post ∧ lotSellStep e.2 post
  | [], rts, lots, p, txns, _, _, _ => by simp
  | (i, inv) :: qt, rts, lots, p, txns, hget, hact, hnodup => by
    have hgetI : lots[i]? = some inv := hget (i, inv) (List.mem_cons_self _ _)
    have hactI : inv.sold = false := hact (i, inv) (List.mem_cons_self _ _)
    have hnd := hnodup
    rw [List.map_cons, List.nodup_cons] at hnd
    obtain ⟨hniQ, hnodup'⟩ := hnd
    have hni : ∀ e ∈ qt, e.1 ≠ i := by
      intro e he hei
      exact hniQ (by simpa [← hei] using List.mem_map_of_mem Prod.fst he)
    intro e he
    by_cases hstop : rts ≤ 0
    · rw [sellWalk_stop _ _ _ _ hstop]
      exact ⟨e.2, hget e he, Or.inl rfl⟩
    by_cases hfull : inv.shares_remaining ≤ rts
    · rw [sellWalk_cons_full hstop hfull]
      rcases List.mem_cons.mp he with rfl | he'
      · refine ⟨{ inv with sold := true }, ?_, Or.inr (Or.inl rfl)⟩
        rw [sellWalk_untouched ticker price date qt _ _ _ _ i hniQ]
        exact set_getElem?_self lots i inv _ hgetI
      · exact sellWalk_lot_step ticker price date qt _ _ _ _
          (fun e' he'' => by
            rw [set_getElem?_ne _ _ _ _ (fun h => hni e' he'' h.symm)]
            exact hget e' (List.mem_cons_of_mem _ he''))
          (fun e' he'' => hact e' (List.mem_cons_of_mem _ he''))
          hnodup' e he'
    · rw [sellWalk_cons_part hstop hfull,
        sellWalk_stop _ _ _ _ (le_refl 0)]
      rcases List.mem_cons.mp he with rfl | he'
      · refine ⟨_, set_getElem?_self lots i inv _ hgetI, ?_⟩
        refine Or.inr (Or.inr
          ⟨round4 (inv.shares_remaining - round2 rts), ?_⟩)
        by_cases h0 : round4 (inv.shares_remaining - round2 rts) = 0 <;>
          simp [h0, hactI]
      · rw [set_getElem?_ne _ _ _ _ (fun h => hni e he' h.symm)]
        exact ⟨e.2, hget e (List.mem_cons_of_mem _ he'), Or.inl rfl⟩

theorem sellWalk_activeShares_cent (ticker : String) (price : ℚ) (date : ℕ) :
    ∀ (q : List (ℕ × Lot)) (rts : ℚ) (lots : List Lot) (p : Portfolio)
      (txns : List Txn),
      (∀ e ∈ q, lots[e.1]? = some e.2) →
      (q.map Prod.fst).Nodup →
      (∀ e ∈ q, e.2.sold = false) →
      (∀ e ∈ q, decMul 2 e.2.shares_remaining) →
      decMul 2 rts →
      activeShares (sellWalk ticker price date q rts lots p txns).lots =
        activeShares lots -
          (rts - (sellWalk ticker price date q rts lots p txns).remaining)
  | [], rts, lots, p, txns, _, _, _, _, _ => by
    rw [sellWalk_nil]
    ring
  | (i, inv) :: qt, rts, lots, p, txns, hget, hnodup, hact, hcent,
      hcentR => by
    by_cases hstop : rts ≤ 0
    · rw [sellWalk_stop _ _ _ _ hstop]
      ring
    have hgetI : lots[i]? = some inv := hget (i, inv) (List.mem_cons_self _ _)
    have hactI : inv.sold = false := hact (i, inv) (List.mem_cons_self _ _)
    have hcentI : decMul 2 inv.shares_remaining :=
      hcent (i, inv) (List.mem_cons_self _ _)
    have hnd := hnodup
    rw [List.map_cons, List.nodup_cons] at hnd
    obtain ⟨hniQ, hnodup'⟩ := hnd
    have hni : ∀ e ∈ qt, e.1 ≠ i := by
      intro e he hei
      exact hniQ (by simpa [← hei] using List.mem_map_of_mem Prod.fst he)
    have h1 : lotActive inv = inv.shares_remaining := by
      simp [lotActive, hactI]
    by_cases hfull : inv.shares_remaining ≤ rts
    · rw [sellWalk_cons_full hstop hfull]
      have IH := sellWalk_activeShares_cent ticker price date qt
        (rts - inv.shares_remaining)
        (lots.set i { inv with sold := true })
        (sellStepPortfolio price inv inv.shares_remaining p)
        (txns ++ [sellTxn ticker price date inv inv.shares_remaining])
        (fun e' he'' => by
          rw [set_getElem?_ne _ _ _ _ (fun h => hni e' he'' h.symm)]
          exact hget e' (List.mem_cons_of_mem _ he''))
        hnodup'
        (fun e' he'' => hact e' (List.mem_cons_of_mem _ he''))
        (fun e' he'' => hcent e' (List.mem_cons_of_mem _ he''))
        (hcentR.sub hcentI)
      rw [IH, activeShares_set lots i inv ({ inv with sold := true }) hgetI,
        h1]
      have h2 : lotActive { inv with sold := true } = 0 := by
        simp [lotActive]
      rw [h2]
      ring
    · rw [sellWalk_cons_part hstop hfull,
        sellWalk_stop _ _ _ _ (le_refl 0)]
      have hr2 : round2 rts = rts := round2_eq_self hcentR
      have hr4 : round4 (inv.shares_remaining - round2 rts) =
          inv.shares_remaining - rts := by
        rw [hr2]
        exact round4_eq_self (hcentI.sub hcentR).two_four
      rw [activeShares_set lots i inv _ hgetI, h1]
      have h2 : lotActive { inv with
          shares_remaining := round4 (inv.shares_remaining - round2 rts),
          sold := if round4 (inv.shares_remaining - round2 rts) = 0 then
            true else inv.sold } = inv.shares_remaining - rts := by
        by_cases h0 : round4 (inv.shares_remaining - round2 rts) = 0
        · rw [← hr4, h0]
          simp [lotActive, h0]
        · simp [lotActive, h0, hactI, hr4]
          exact fun h => h.symm
      rw [h2]
      ring

theorem sellWalk_allfull (ticker : String) (price : ℚ) (date : ℕ) :
    ∀ (q : List (ℕ × Lot)) (rts : ℚ) (lots : List Lot) (p : Portfolio)
      (txns : List Txn),
      (∀ e ∈ q, lots[e.1]? = some e.2) →
      (q.map Prod.fst).Nodup →
      (∀ e ∈ q, 0 ≤ e.2.shares_remaining) →
      (q.map (fun e => e.2.shares_remaining)).sum ≤ rts →
      (sellWalk ticker price date q rts lots p txns).remaining =
        rts - (q.map (fun e => e.2.shares_remaining)).sum ∧
      (sellWalk ticker price date q rts lots p txns).lots.map
          (fun l => l.shares_remaining) =
        lots.map (fun l => l.shares_remaining)
  | [], rts, lots, p, txns, _, _, _, _ => by
    rw [sellWalk_nil]
    simp
  | (i, inv) :: qt, rts, lots, p, txns, hget, hnodup, hnn, hsum => by
    have hgetI : lots[i]? = some inv := hget (i, inv) (List.mem_cons_self _ _)
    have hnnI : 0 ≤ inv.shares_remaining :=
      hnn (i, inv) (List.mem_cons_self _ _)
    have hnd := hnodup
    rw [List.map_cons, List.nodup_cons] at hnd
    obtain ⟨hniQ, hnodup'⟩ := hnd
    have hni : ∀ e ∈ qt, e.1 ≠ i := by
      intro e he hei
      exact hniQ (by simpa [← hei] using List.mem_map_of_mem Prod.fst he)
    have hsumt : 0 ≤ (qt.map (fun e => e.2.shares_remaining)).sum := by
      apply List.sum_nonneg
      intro x hx
      obtain ⟨e, he, rfl⟩ := List.mem_map.mp hx
      exact hnn e (List.mem_cons_of_mem _ he)
    simp only [List.map_cons, List.sum_cons] at hsum ⊢
    by_cases hstop : rts ≤ 0
    · rw [sellWalk_stop _ _ _ _ hstop]
      constructor
      · have h0 : inv.shares_remaining +
            (qt.map (fun e => e.2.shares_remaining)).sum = 0 := by
          linarith
        rw [h0]
        ring
      · rfl
    have hfull : inv.shares_remaining ≤ rts := by linarith
    rw [sellWalk_cons_full hstop hfull]
    have IH := sellWalk_allfull ticker price date qt
      (rts - inv.shares_remaining)
      (lots.set i { inv with sold := true })
      (sellStepPortfolio price inv inv.shares_remaining p)
      (txns ++ [sellTxn ticker price date inv inv.shares_remaining])
      (fun e' he'' => by
        rw [set_getElem?_ne _ _ _ _ (fun h => hni e' he'' h.symm)]
        exact hget e' (List.mem_cons_of_mem _ he''))
      hnodup'
      (fun e' he'' => hnn e' (List.mem_cons_of_mem _ he''))
      (by linarith)
    obtain ⟨IH1, IH2⟩ := IH
    constructor
    · rw [IH1]
      ring
    · rw [IH2, List.map_set]
      exact set_of_getElem? _ i _
        (by rw [List.getElem?_map _ lots i, hgetI]; rfl)

/-! ## C2 — lot-selection order of `sell_position` -/

/-- The consumption order the claim describes, at sale price `price`:
every loss lot (unit cost strictly above the sale price) precedes every
gain lot; loss lots are ordered by unit cost descending; gain lots by
purchase date ascending. -/
def sellOrder (price : ℚ) (a b : ℕ × Lot) : Prop :=
  (price < a.2.price ∧ price < b.2.price ∧ b.2.price ≤ a.2.price) ∨
  (price < a.2.price ∧ b.2.price ≤ price) ∨
  (a.2.price ≤ price ∧ b.2.price ≤ price ∧ a.2.date ≤ b.2.date)

/-- Lot A of the claim's concrete instance: cost $10, bought on the
later date `1`. -/
def lotA : Lot :=
  { date := 1, initial_shares_purchased := 1, shares_remaining := 1,
    price := 10, cost := 10, current_value := 10, return_pct := 0,
    days_held := 0, sold := false }

/-- Lot B of the claim's concrete instance: cost $8, bought on the
earlier date `0`. -/
def lotB : Lot :=
  { date := 0, initial_shares_purchased := 1, shares_remaining := 1,
    price := 8, cost := 8, current_value := 8, return_pct := 0,
    days_held := 0, sold := false }

/-- A portfolio holding lots B (older, cost $8) and A (newer, cost $10)
of ticker "T". -/
def exC2 : Portfolio :=
  mkPortfolio 0 [("T",
    { initial_shares_purchased := 2, shares_remaining := 2,
      investments := [lotB, lotA], cost_basis := 9 })]

/-- C2: (i) for every lot list and sale price, the queue `sell_position`
walks is pairwise ordered by `sellOrder` (losses first, by cost
descending, then gains by date ascending) and is a permutation of the
active lots; (ii) in the claim's concrete instance (A: cost $10 dated 1,
B: cost $8 dated 0, sale price $9, demand 1.5 shares spanning both), the
loss lot A is consumed fully (marked sold) before the older gain lot B,
which is only half consumed. -/
theorem C2_sell_queue_order :
    (∀ (lots : List Lot) (price : ℚ),
      List.Pairwise (sellOrder price) (sellingQueue lots price) ∧
      List.Perm (sellingQueue lots price)
        ((idxFrom 0 lots).filter (fun e => !e.2.sold))) ∧
    (sell_position exC2 "T" (3/2) 9 5 []).portfolio.holdings =
      [("T", { initial_shares_purchased := 2, shares_remaining := 1/2,
               investments := [{ lotB with shares_remaining := 1/2 },
                               { lotA with sold := true }],
               cost_basis := 9 })] := by
  constructor
  · intro lots price
    haveI : IsTotal (ℕ × Lot) (fun a b => b.2.price ≤ a.2.price) :=
      ⟨fun a b => le_total _ _⟩
    haveI : IsTrans (ℕ × Lot) (fun a b => b.2.price ≤ a.2.price) :=
      ⟨fun a b c h1 h2 => le_trans h2 h1⟩
    haveI : IsTotal (ℕ × Lot) (fun a b => a.2.date ≤ b.2.date) :=
      ⟨fun a b => le_total _ _⟩
    haveI : IsTrans (ℕ × Lot) (fun a b => a.2.date ≤ b.2.date) :=
      ⟨fun a b c h1 h2 => le_trans h1 h2⟩
    set active := (idxFrom 0 lots).filter (fun e => !e.2.sold) with hactive
    have hq : sellingQueue lots price =
        List.insertionSort (fun a b : ℕ × Lot => b.2.price ≤ a.2.price)
          (active.filter (fun e => decide (price < e.2.price))) ++
        List.insertionSort (fun a b : ℕ × Lot => a.2.date ≤ b.2.date)
          (active.filter (fun e => decide (e.2.price ≤ price))) := rfl
    have memLoss : ∀ a ∈ List.insertionSort
        (fun a b : ℕ × Lot => b.2.price ≤ a.2.price)
        (active.filter (fun e => decide (price < e.2.price))),
        price < a.2.price := by
      intro a ha
      have := (List.perm_insertionSort _ _).subset ha
      exact of_decide_eq_true (List.mem_filter.mp this).2
    have memGain : ∀ a ∈ List.insertionSort
        (fun a b : ℕ × Lot => a.2.date ≤ b.2.date)
        (active.filter (fun e => decide (e.2.price ≤ price))),
        a.2.price ≤ price := by
      intro a ha
      have := (List.perm_insertionSort _ _).subset ha
      exact of_decide_eq_true (List.mem_filter.mp this).2
    constructor
    · rw [hq, List.pairwise_append]
      refine ⟨?_, ?_, ?_⟩
      · refine List.Pairwise.imp_of_mem ?_
          (List.sorted_insertionSort _ _)
        intro a b ha hb hr
        exact Or.inl ⟨memLoss a ha, memLoss b hb, hr⟩
      · refine List.Pairwise.imp_of_mem ?_
          (List.sorted_insertionSort _ _)
        intro a b ha hb hr
        exact Or.inr (Or.inr ⟨memGain a ha, memGain b hb, hr⟩)
      · intro a ha b hb
        exact Or.inr (Or.inl ⟨memLoss a ha, memGain b hb⟩)
    · exact sellingQueue_perm lots price
  · norm_num [sell_position, sellWalk, sellStepPortfolio, sellTxn,
      sellingQueue, idxFrom, dictGet, dictSet, record_gains_losses,
      exC2, mkPortfolio, lotA, lotB, round2, round4, roundTo, rndHalfEven]

/-! ## C5 — over-selling is safe -/

/-- The portfolio reached by buying one share of "A" at 10 and then
selling `0.125` shares of it: the partial-sale branch leaves the lot at
`round(1 - round(0.125, 2), 4) = 0.88` while the holding total drops by
the unrounded demand to `0.875`. -/
def exC5drift : Portfolio :=
  (sell_position (buy_position (mkPortfolio 10 []) "A" 1 10 0 []).1
    "A" (1/8) 10 0 []).portfolio

/-- C5 (counterexample): on the state produced by a buy followed by a
partial sale — holding total `0.875`, one active lot of `0.88` shares —
an oversell of 1 share fully consumes the lot and decrements the holding
by `0.88`, driving `Holding.shares_remaining` to `-0.005 < 0`.  This
refutes the unconditional claim that over-selling never makes a
holding's `shares_remaining` negative. -/
theorem C5_counterexample :
    ((dictGet exC5drift.holdings "A").getD
        emptyHolding).shares_remaining = 7/8 ∧
      activeShares ((dictGet exC5drift.holdings "A").getD
        emptyHolding).investments = 22/25 ∧
      (22/25 : ℚ) < 1 ∧
      ((dictGet (sell_position exC5drift "A" 1 10 0
          []).portfolio.holdings "A").getD
        emptyHolding).shares_remaining = -(1/200) ∧
      (-(1/200) : ℚ) < 0 := by
  refine ⟨?_, ?_, by norm_num, ?_, by norm_num⟩ <;>
    norm_num [exC5drift, sell_position, buy_position, sellWalk,
      sellStepPortfolio, sellTxn, sellingQueue, idxFrom, dictGet,
      dictSet, record_gains_losses, emptyHolding, mkPortfolio,
      activeShares, round2, round4, roundTo, rndHalfEven]

/-- C5 (amended): *provided* the ticker's holding satisfies the ledger
invariant and its active lots have non-negative share counts — a proviso
the counterexample above shows is necessary, since the partial-sale
rounding drift produces states violating it on which an oversell drives
`Holding.shares_remaining` to `-0.005` — selling more shares than the
ticker holds consumes every active lot through the full-consumption
branch only, so no lot's `shares_remaining` changes at all; the
`Holding.shares_remaining` is decremented by exactly the total actually
sold (the active-lot total, bringing it to 0, not below); and the excess
demand is silently dropped: the call still reports success whenever
anything was sold. -/
theorem C5_oversell_safe (p : Portfolio) (ticker : String)
    (shares_to_sell price : ℚ) (date : ℕ) (txns : List Txn) (h : Holding)
    (hh : dictGet p.holdings ticker = some h)
    (hinv : holdingInv h)
    (hnn : ∀ l ∈ h.investments, l.sold = false → 0 ≤ l.shares_remaining)
    (hover : h.shares_remaining < shares_to_sell) :
    ∃ h', dictGet (sell_position p ticker shares_to_sell price date
        txns).portfolio.holdings ticker = some h' ∧
      h'.investments.map (fun l => l.shares_remaining) =
        h.investments.map (fun l => l.shares_remaining) ∧
      h'.shares_remaining =
        h.shares_remaining - activeShares h.investments ∧
      h'.shares_remaining = 0 ∧
      (0 < activeShares h.investments →
        (sell_position p ticker shares_to_sell price date txns).ok =
          true) := by
  have hinv' : h.shares_remaining = activeShares h.investments := hinv
  have hqnn : ∀ e ∈ sellingQueue h.investments price,
      0 ≤ e.2.shares_remaining := by
    intro e he
    exact hnn e.2 (List.getElem?_mem (sellingQueue_getElem? he))
      (sellingQueue_mem he).2
  have hsum := sellingQueue_rem_sum h.investments price
  have hall := sellWalk_allfull ticker price date
    (sellingQueue h.investments price) shares_to_sell h.investments p txns
    (fun e he => sellingQueue_getElem? he)
    (sellingQueue_fst_nodup h.investments price)
    hqnn
    (by rw [hsum, ← hinv']; exact le_of_lt hover)
  obtain ⟨hrem, hmap⟩ := hall
  rw [hsum] at hrem
  have hAnn : 0 ≤ activeShares h.investments := by
    rw [← hsum]
    apply List.sum_nonneg
    intro x hx
    obtain ⟨e, he, rfl⟩ := List.mem_map.mp hx
    exact hqnn e he
  have hactual : shares_to_sell -
      (sellWalk ticker price date (sellingQueue h.investments price)
        shares_to_sell h.investments p txns).remaining =
      activeShares h.investments := by
    rw [hrem]
    ring
  simp only [sell_position, hh]
  by_cases hc : 0 < shares_to_sell -
      (sellWalk ticker price date (sellingQueue h.investments price)
        shares_to_sell h.investments p txns).remaining
  · rw [if_pos hc]
    refine ⟨_, dictGet_dictSet_self _ _ _, hmap, ?_, ?_, fun _ => rfl⟩
    · simp only [hactual]
    · simp only [hactual, hinv']
      ring
  · rw [if_neg hc]
    have h0 : activeShares h.investments = 0 := by
      rw [← hactual]
      have := not_lt.mp hc
      linarith
    refine ⟨_, dictGet_dictSet_self _ _ _, hmap, ?_, ?_, ?_⟩
    · simp only [h0]
      ring
    · rw [hinv', h0]
    · intro hpos
      rw [h0] at hpos
      exact absurd hpos (lt_irrefl 0)

/-- The single 1-share lot used in the C5 witness. -/
def exC5lot : Lot :=
  { date := 0, initial_shares_purchased := 1, shares_remaining := 1,
    price := 10, cost := 10, current_value := 10, return_pct := 0,
    days_held := 0, sold := false }

/-- The portfolio used in the C5 witness. -/
def exC5P : Portfolio :=
  mkPortfolio 0 [("A",
    { initial_shares_purchased := 1, shares_remaining := 1,
      investments := [exC5lot], cost_basis := 10 })]

/-- C5 witness: one active lot of 1 share, demand 2 at price 10. -/
theorem C5_witness :
    ∃ h', dictGet (sell_position exC5P "A" 2 10 1
        []).portfolio.holdings "A" = some h' ∧
      h'.investments.map (fun l => l.shares_remaining) =
        [exC5lot].map (fun l => l.shares_remaining) ∧
      h'.shares_remaining = 1 - activeShares [exC5lot] ∧
      h'.shares_remaining = 0 ∧
      (0 < activeShares [exC5lot] →
        (sell_position exC5P "A" 2 10 1 []).ok = true) :=
  C5_oversell_safe exC5P "A" 2 10 1 []
    ⟨1, 1, [exC5lot], 10⟩
    (by norm_num [exC5P, mkPortfolio, dictGet])
    (by norm_num [holdingInv, activeShares, lotActive, exC5lot])
    (by intro l hl _; simp at hl; subst hl; norm_num [exC5lot])
    (by norm_num)

/-! ## C10 — a `None` return of `sell_position` -/

/-- The portfolio of the C10 counterexample: one holding of ticker "A"
whose single lot is active with *negative* `shares_remaining` `-0.0005`.
This state is reachable: selling `0.999` shares against a fresh
`0.9995`-share lot takes the partial branch, which removes
`round(0.999, 2) = 1.00` shares from the lot and leaves
`round(0.9995 - 1.00, 4) = -0.0005` with `sold` still false. -/
def exC10lot : Lot :=
  { date := 0, initial_shares_purchased := 1,
    shares_remaining := -(5/10000), price := 8, cost := 8,
    current_value := 8, return_pct := 0, days_held := 0, sold := false }

def exC10P : Portfolio :=
  mkPortfolio 0 [("A",
    { initial_shares_purchased := 1, shares_remaining := 5/10000,
      investments := [exC10lot], cost_basis := 8 })]

/-- C10 (counterexample): on the reachable state `exC10P` (one active lot
with negative remainder), a sell of `0.0001` shares consumes the negative
lot, *increasing* the outstanding demand, so the function returns `None`
(`ok = false`) — yet it has marked the lot `sold = true` and appended a
sell transaction.  The claim that a `None` return leaves the portfolio
exactly unchanged with no transaction appended is false. -/
theorem C10_counterexample :
    (sell_position exC10P "A" (1/10000) 8 0 []).ok = false ∧
    (sell_position exC10P "A" (1/10000) 8 0 []).txns ≠ [] ∧
    ((dictGet (sell_position exC10P "A" (1/10000) 8 0
        []).portfolio.holdings "A").getD emptyHolding).investments =
      [{ exC10lot with sold := true }] ∧
    exC10lot.sold = false := by
  refine ⟨?_, ?_, ?_, rfl⟩ <;>
    norm_num [sell_position, sellWalk, sellStepPortfolio, sellTxn,
      sellingQueue, idxFrom, dictGet, dictSet, record_gains_losses,
      exC10P, mkPortfolio, exC10lot, round2, round4, roundTo, rndHalfEven]

/-- C10 (amended): provided every active lot of the ticker has positive
`shares_remaining` (true of every state the program itself reaches in
the absence of the rounding overshoot of C5's counterexample),
`sell_position` returns `None` exactly when the ticker is absent, the
demand is non-positive, or the ticker has no active lots — and in that
case the portfolio and the transaction log are returned exactly
unchanged. -/
theorem C10_none_unchanged (p : Portfolio) (ticker : String)
    (shares_to_sell price : ℚ) (date : ℕ) (txns : List Txn)
    (hpos : ∀ h, dictGet p.holdings ticker = some h →
      ∀ l ∈ h.investments, l.sold = false → 0 < l.shares_remaining) :
    ((sell_position p ticker shares_to_sell price date txns).ok = false ↔
      (dictGet p.holdings ticker = none ∨ shares_to_sell ≤ 0 ∨
        ∃ h, dictGet p.holdings ticker = some h ∧
          h.investments.filter (fun l => !l.sold) = [])) ∧
    ((sell_position p ticker shares_to_sell price date txns).ok = false →
      (sell_position p ticker shares_to_sell price date txns).portfolio =
          p ∧
        (sell_position p ticker shares_to_sell price date txns).txns =
          txns) := by
  cases hd : dictGet p.holdings ticker with
  | none =>
    simp [sell_position, hd]
  | some h =>
    have hqe : sellingQueue h.investments price = [] ↔
        h.investments.filter (fun l => !l.sold) = [] := by
      constructor
      · intro h0
        have hp := sellingQueue_perm h.investments price
        rw [h0] at hp
        have ha : (idxFrom 0 h.investments).filter
            (fun e => !e.2.sold) = [] := hp.symm.eq_nil
        have := idxFrom_filter_map_snd h.investments 0
        rw [ha] at this
        exact this.symm
      · intro h0
        have hm := idxFrom_filter_map_snd h.investments 0
        rw [h0] at hm
        have ha := List.map_eq_nil_iff.mp hm
        have hp := sellingQueue_perm h.investments price
        rw [ha] at hp
        exact hp.eq_nil
    by_cases hs0 : shares_to_sell ≤ 0
    · simp only [sell_position, hd,
        sellWalk_stop _ _ _ _ hs0]
      rw [if_neg (by simp)]
      refine ⟨⟨fun _ => Or.inr (Or.inl hs0), fun _ => rfl⟩, fun _ => ?_⟩
      refine ⟨?_, rfl⟩
      have : ({ h with investments := h.investments } : Holding) = h := rfl
      rw [this, dictSet_of_dictGet hd]
    · by_cases hqnil : sellingQueue h.investments price = []
      · simp only [sell_position, hd, hqnil, sellWalk_nil]
        rw [if_neg (by simp)]
        refine ⟨⟨fun _ => Or.inr (Or.inr ⟨h, rfl, hqe.mp hqnil⟩),
          fun _ => rfl⟩, fun _ => ?_⟩
        refine ⟨?_, rfl⟩
        have : ({ h with investments := h.investments } : Holding) = h :=
          rfl
        rw [this, dictSet_of_dictGet hd]
      · obtain ⟨e, qt, hq⟩ := List.exists_cons_of_ne_nil hqnil
        obtain ⟨i, inv⟩ := e
        have hql : ∀ e ∈ sellingQueue h.investments price,
            0 < e.2.shares_remaining := by
          intro e he
          exact hpos h hd e.2
            (List.getElem?_mem (sellingQueue_getElem? he))
            (sellingQueue_mem he).2
        have hlt : (sellWalk ticker price date
            (sellingQueue h.investments price) shares_to_sell
            h.investments p txns).remaining < shares_to_sell := by
          rw [hq]
          exact sellWalk_remaining_lt (not_le.mp hs0)
            (by rw [← hq]; exact hql)
        have hok : 0 < shares_to_sell -
            (sellWalk ticker price date
              (sellingQueue h.investments price) shares_to_sell
              h.investments p txns).remaining := by linarith
        simp only [sell_position, hd]
        rw [if_pos hok]
        refine ⟨⟨fun hfalse => absurd hfalse (by simp), fun hor => ?_⟩,
          fun hfalse => absurd hfalse (by simp)⟩
        rcases hor with h1 | h1 | ⟨h', hh', hfil⟩
        · exact Option.noConfusion h1
        · exact absurd h1 hs0
        · obtain rfl : h = h' := by injection hh'
          exact absurd (hqe.mpr hfil) hqnil

/-- C10 witness: selling a ticker that is not in the holdings returns
`None` and changes nothing. -/
theorem C10_witness :
    ((sell_position (mkPortfolio 7 []) "Z" 1 10 0 []).ok = false ↔
      (dictGet (mkPortfolio 7 []).holdings "Z" = none ∨ (1:ℚ) ≤ 0 ∨
        ∃ h, dictGet (mkPortfolio 7 []).holdings "Z" = some h ∧
          h.investments.filter (fun l => !l.sold) = [])) ∧
    ((sell_position (mkPortfolio 7 []) "Z" 1 10 0 []).ok = false →
      (sell_position (mkPortfolio 7 []) "Z" 1 10 0 []).portfolio =
          mkPortfolio 7 [] ∧
        (sell_position (mkPortfolio 7 []) "Z" 1 10 0 []).txns = []) :=
  C10_none_unchanged (mkPortfolio 7 []) "Z" 1 10 0 []
    (by intro h hh; simp [mkPortfolio, dictGet] at hh)

/-! ## Helper definitions and lemmas: tax-loss harvesting -/

/-- The exact per-lot harvest condition of the code: active, non-zero
shares, and return at or below the trigger. -/
def harvestHit (trigger : ℚ) (l : Lot) : Bool :=
  !l.sold && !(decide (l.shares_remaining = 0)) &&
    decide (l.return_pct ≤ trigger)

/-- The effect of one harvesting pass on one lot. -/
def markLot (trigger : ℚ) (l : Lot) : Lot :=
  if harvestHit trigger l then
    { l with sold := true, shares_remaining := 0 }
  else l

/-- Shares removed from `Holding.shares_remaining` by one harvesting
pass (the code guards the decrement by `sold_shares > 0`). -/
def harvestedShares (trigger : ℚ) (lots : List Lot) : ℚ :=
  ((lots.filter (fun l => harvestHit trigger l &&
      decide (0 < l.shares_remaining))).map
    (fun l => l.shares_remaining)).sum

/-- Cash credited by one harvesting pass over one ticker's lots. -/
def harvestedProceeds (trigger price : ℚ) (lots : List Lot) : ℚ :=
  ((lots.filter (fun l => harvestHit trigger l)).map
    (fun l => round2 (l.shares_remaining * price))).sum

/-- One ticker's holding after a harvesting pass at a known price. -/
def harvestHolding (trigger : ℚ) (h : Holding) : Holding :=
  { h with investments := h.investments.map (markLot trigger),
           shares_remaining :=
             h.shares_remaining - harvestedShares trigger h.investments }

theorem harvestStepPortfolio_holdings (price : ℚ) (lot : Lot)
    (p : Portfolio) :
    (harvestStepPortfolio price lot p).holdings = p.holdings := by
  rw [harvestStepPortfolio, record_gains_losses_holdings]

theorem harvestStepPortfolio_cash (price : ℚ) (lot : Lot) (p : Portfolio) :
    (harvestStepPortfolio price lot p).cash =
      p.cash + round2 (lot.shares_remaining * price) := by
  rw [harvestStepPortfolio, record_gains_losses_cash]

theorem harvestLot_hit {trigger price : ℚ} {ticker : String} {date : ℕ}
    {s : HarvestState} {lot : Lot} (h : harvestHit trigger lot = true) :
    harvestLot trigger price ticker date s lot =
      ({ p := harvestStepPortfolio price lot s.p,
         holdRem :=
           if 0 < lot.shares_remaining then
             s.holdRem - lot.shares_remaining
           else s.holdRem,
         txns := s.txns ++ [harvestTxn ticker price date lot],
         tickerSold := true },
       markLot trigger lot) := by
  have hb := h
  rw [harvestHit, Bool.and_eq_true, Bool.and_eq_true] at hb
  obtain ⟨⟨hb1, hb2⟩, hb3⟩ := hb
  have h1 : ¬ lot.sold = true := by simp at hb1; simp [hb1]
  have h2 : ¬ lot.shares_remaining = 0 := by simpa using hb2
  have h3 : lot.return_pct ≤ trigger := by simpa using hb3
  rw [harvestLot, if_neg h1, if_neg h2, if_pos h3, markLot, if_pos h]

theorem harvestLot_miss {trigger price : ℚ} {ticker : String} {date : ℕ}
    {s : HarvestState} {lot : Lot} (h : harvestHit trigger lot = false) :
    harvestLot trigger price ticker date s lot = (s, lot) := by
  by_cases h1 : lot.sold = true
  · rw [harvestLot, if_pos h1]
  by_cases h2 : lot.shares_remaining = 0
  · rw [harvestLot, if_neg h1, if_pos h2]
  have h3 : ¬ lot.return_pct ≤ trigger := by
    intro h3
    rw [harvestHit] at h
    simp only [Bool.not_eq_true] at h1
    simp [h1, h2, h3] at h
  rw [harvestLot, if_neg h1, if_neg h2, if_neg h3]

theorem markLot_miss {trigger : ℚ} {lot : Lot}
    (h : harvestHit trigger lot = false) : markLot trigger lot = lot := by
  rw [markLot, if_neg (by simp [h])]

theorem dictGet_of_mem_nodup {α : Type} :
    ∀ {l : List (String × α)}, (l.map Prod.fst).Nodup →
      ∀ {e : String × α}, e ∈ l → dictGet l e.1 = some e.2
  | [], _, e, he => by simp at he
  | (k, v) :: t, hnd, e, he => by
    have hnd' := hnd
    rw [List.map_cons, List.nodup_cons] at hnd'
    obtain ⟨hk, hnd''⟩ := hnd'
    have hk' : k ∉ List.map Prod.fst t := by simpa using hk
    rcases List.mem_cons.mp he with heq | he'
    · rw [heq, dictGet, if_pos rfl]
    · have hne : k ≠ e.1 := by
        intro hke
        apply hk'
        rw [hke]
        exact List.mem_map_of_mem Prod.fst he'
      rw [dictGet, if_neg hne]
      exact dictGet_of_mem_nodup hnd'' he'

theorem harvestLots_spec (trigger price : ℚ) (ticker : String) (date : ℕ) :
    ∀ (lots : List Lot) (s : HarvestState),
      (harvestLots trigger price ticker date s lots).2 =
          lots.map (markLot trigger) ∧
        (harvestLots trigger price ticker date s lots).1.p.cash =
          s.p.cash + harvestedProceeds trigger price lots ∧
        (harvestLots trigger price ticker date s lots).1.p.holdings =
          s.p.holdings ∧
        (harvestLots trigger price ticker date s lots).1.holdRem =
          s.holdRem - harvestedShares trigger lots ∧
        (harvestLots trigger price ticker date s lots).1.tickerSold =
          (s.tickerSold || lots.any (fun l => harvestHit trigger l)) ∧
        ∃ ts, (harvestLots trigger price ticker date s lots).1.txns =
          s.txns ++ ts
  | [], s => by
    refine ⟨rfl, ?_, rfl, ?_, by simp [harvestLots], ⟨[], by simp [harvestLots]⟩⟩
    · simp [harvestLots, harvestedProceeds]
    · simp [harvestLots, harvestedShares]
  | lot :: rest, s => by
    cases hhit : harvestHit trigger lot with
    | true =>
      have hstep := @harvestLot_hit trigger price ticker date s lot hhit
      have IH := harvestLots_spec trigger price ticker date rest
        ({ p := harvestStepPortfolio price lot s.p,
           holdRem :=
             if 0 < lot.shares_remaining then
               s.holdRem - lot.shares_remaining
             else s.holdRem,
           txns := s.txns ++ [harvestTxn ticker price date lot],
           tickerSold := true })
      obtain ⟨IH1, IH2, IH3, IH4, IH5, IH6⟩ := IH
      rw [harvestLots, hstep]
      refine ⟨by simp [IH1], ?_, ?_, ?_, ?_, ?_⟩
      · rw [IH2]
        simp only [harvestStepPortfolio_cash, harvestedProceeds,
          List.filter_cons]
        rw [if_pos (by simp [hhit])]
        simp only [List.map_cons, List.sum_cons]
        ring
      · rw [IH3, harvestStepPortfolio_holdings]
      · rw [IH4]
        simp only [harvestedShares, List.filter_cons]
        by_cases hpos : 0 < lot.shares_remaining
        · rw [if_pos hpos, if_pos (show (harvestHit trigger lot &&
            decide (0 < lot.shares_remaining)) = true by simp [hhit, hpos])]
          simp only [List.map_cons, List.sum_cons]
          ring
        · rw [if_neg hpos, if_neg (show ¬ (harvestHit trigger lot &&
            decide (0 < lot.shares_remaining)) = true by simp [hhit, hpos])]
      · rw [IH5]
        simp [hhit]
      · obtain ⟨ts, hts⟩ := IH6
        exact ⟨harvestTxn ticker price date lot :: ts, by
          rw [hts]; simp⟩
    | false =>
      have hstep := @harvestLot_miss trigger price ticker date s lot hhit
      have IH := harvestLots_spec trigger price ticker date rest s
      obtain ⟨IH1, IH2, IH3, IH4, IH5, IH6⟩ := IH
      rw [harvestLots, hstep]
      refine ⟨by simp [IH1, markLot_miss hhit], ?_, IH3, ?_, ?_, IH6⟩
      · rw [IH2]
        simp only [harvestedProceeds, List.filter_cons]
        rw [if_neg (by simp [hhit])]
      · rw [IH4]
        simp only [harvestedShares, List.filter_cons]
        rw [if_neg (by simp [hhit])]
      · rw [IH5]
        simp [hhit]

theorem harvestTicker_none {pricesAt : String → Option ℚ} {date : ℕ}
    {trigger : ℚ} {p : Portfolio} {txns : List Txn} {st : List String}
    {e : String × Holding} (hp : pricesAt e.1 = none) :
    harvestTicker pricesAt date trigger p txns st e = (p, txns, st) := by
  simp [harvestTicker, hp]

theorem harvestTicker_some {pricesAt : String → Option ℚ} {date : ℕ}
    {trigger : ℚ} {p : Portfolio} {txns : List Txn} {st : List String}
    {e : String × Holding} {price : ℚ} (hp : pricesAt e.1 = some price) :
    (harvestTicker pricesAt date trigger p txns st e).1.holdings =
        dictSet p.holdings e.1 (harvestHolding trigger e.2) ∧
      (harvestTicker pricesAt date trigger p txns st e).1.cash =
        p.cash + harvestedProceeds trigger price e.2.investments ∧
      (harvestTicker pricesAt date trigger p txns st e).2.2 =
        (if e.2.investments.any (fun l => harvestHit trigger l) then
          st ++ [e.1] else st) ∧
      ∃ ts, (harvestTicker pricesAt date trigger p txns st e).2.1 =
        txns ++ ts := by
  obtain ⟨hl1, hl2, hl3, hl4, hl5, hl6⟩ :=
    harvestLots_spec trigger price e.1 date e.2.investments
      ⟨p, e.2.shares_remaining, txns, false⟩
  simp only [harvestTicker, hp]
  refine ⟨?_, ?_, ?_, ?_⟩
  · rw [hl3, hl1, hl4, harvestHolding]
  · exact hl2
  · rw [hl5]
    simp
  · exact hl6

theorem harvestAll_spec (pricesAt : String → Option ℚ) (date : ℕ)
    (trigger : ℚ) :
    ∀ (entries : List (String × Holding)) (p : Portfolio)
      (txns : List Txn) (st : List String),
      (entries.map Prod.fst).Nodup →
      (∀ e ∈ entries, dictGet p.holdings e.1 = some e.2) →
      (∀ e ∈ entries,
        dictGet
            (harvestAll pricesAt date trigger entries p txns st).1.holdings
            e.1 =
          some (match pricesAt e.1 with
            | none => e.2
            | some _ => harvestHolding trigger e.2)) ∧
      (∀ t', t' ∉ entries.map Prod.fst →
        dictGet
            (harvestAll pricesAt date trigger entries p txns st).1.holdings
            t' =
          dictGet p.holdings t') ∧
      (harvestAll pricesAt date trigger entries p txns st).1.cash =
        p.cash + (entries.map (fun e =>
          match pricesAt e.1 with
          | none => 0
          | some price =>
            harvestedProceeds trigger price e.2.investments)).sum ∧
      (harvestAll pricesAt date trigger entries p txns st).2.2 =
        st ++ (entries.filter (fun e => (pricesAt e.1).isSome &&
          e.2.investments.any (fun l => harvestHit trigger l))).map
            Prod.fst
  | [], p, txns, st, _, _ => by
    refine ⟨by simp, fun t' _ => rfl, by simp [harvestAll], by
      simp [harvestAll]⟩
  | e :: rest, p, txns, st, hnd, hcons => by
    have hnd0 := hnd
    rw [List.map_cons, List.nodup_cons] at hnd0
    obtain ⟨hke0, hnd'⟩ := hnd0
    have hke : e.1 ∉ rest.map Prod.fst := by simpa using hke0
    have hc0 : dictGet p.holdings e.1 = some e.2 :=
      hcons e (List.mem_cons_self _ _)
    rw [harvestAll]
    cases hp : pricesAt e.1 with
    | none =>
      rw [harvestTicker_none hp]
      obtain ⟨IH1, IH2, IH3, IH4⟩ := harvestAll_spec pricesAt date trigger
        rest p txns st hnd'
        (fun e' he' => hcons e' (List.mem_cons_of_mem _ he'))
      refine ⟨?_, ?_, ?_, ?_⟩
      · intro e' he'
        rcases List.mem_cons.mp he' with rfl | he''
        · rw [hp, IH2 e'.1 hke, hc0]
        · exact IH1 e' he''
      · intro t' ht'
        exact IH2 t' (fun h => ht' (List.mem_cons_of_mem _ h))
      · rw [IH3]
        simp only [List.map_cons, List.sum_cons, hp]
        ring
      · rw [IH4]
        simp only [List.filter_cons, hp]
        rfl
    | some price =>
      obtain ⟨ht1, ht2, ht3, ht4⟩ :=
        @harvestTicker_some pricesAt date trigger p txns st e price hp
      obtain ⟨IH1, IH2, IH3, IH4⟩ := harvestAll_spec pricesAt date trigger
        rest (harvestTicker pricesAt date trigger p txns st e).1
        (harvestTicker pricesAt date trigger p txns st e).2.1
        (harvestTicker pricesAt date trigger p txns st e).2.2 hnd'
        (fun e' he' => by
          rw [ht1, dictGet_dictSet_ne _ _ ?_]
          · exact hcons e' (List.mem_cons_of_mem _ he')
          · intro hee
            exact hke (hee ▸ List.mem_map_of_mem Prod.fst he'))
      refine ⟨?_, ?_, ?_, ?_⟩
      · intro e' he'
        rcases List.mem_cons.mp he' with rfl | he''
        · rw [hp, IH2 e'.1 hke, ht1, dictGet_dictSet_self]
        · exact IH1 e' he''
      · intro t' ht'
        rw [IH2 t' (fun h => ht' (List.mem_cons_of_mem _ h)), ht1,
          dictGet_dictSet_ne _ _ (fun h => ht' (by rw [← h]; simp))]
      · rw [IH3, ht2]
        simp only [List.map_cons, List.sum_cons, hp]
        ring
      · rw [IH4, ht3]
        simp only [List.filter_cons, hp, Option.isSome_some,
          Bool.true_and]
        by_cases hany : e.2.investments.any (fun l => harvestHit trigger l)
        · rw [if_pos hany, if_pos hany]
          simp
        · rw [if_neg hany, if_neg hany]

/-! ## C3 — tax-loss harvesting -/

/-- The spec-form per-lot harvest effect: an active lot whose return is
at or below the trigger is liquidated entirely and marked sold; every
other lot is untouched. -/
def harvestSpecLot (trigger : ℚ) (l : Lot) : Lot :=
  if l.sold = false ∧ l.return_pct ≤ trigger then
    { l with sold := true, shares_remaining := 0 }
  else l

/-- Spec-form proceeds: each harvested lot credits
`round(shares_remaining × price, 2)` to cash. -/
def harvestSpecProceeds (trigger price : ℚ) (lots : List Lot) : ℚ :=
  ((lots.filter (fun l => !l.sold && decide (l.return_pct ≤ trigger))).map
    (fun l => round2 (l.shares_remaining * price))).sum

theorem harvestHit_eq_spec {trigger : ℚ} {l : Lot}
    (hA : l.sold = false → l.shares_remaining ≠ 0) :
    harvestHit trigger l = (!l.sold && decide (l.return_pct ≤ trigger)) := by
  rw [harvestHit]
  cases hs : l.sold with
  | true => simp
  | false => simp [hA hs]

theorem markLot_eq_spec {trigger : ℚ} {l : Lot}
    (hA : l.sold = false → l.shares_remaining ≠ 0) :
    markLot trigger l = harvestSpecLot trigger l := by
  rw [markLot, harvestSpecLot, harvestHit_eq_spec hA]
  cases hs : l.sold with
  | true => simp [hs]
  | false =>
    by_cases ht : l.return_pct ≤ trigger <;> simp [hs, ht]

/-- C3: on every call to `track_and_manage_positions` (on a state where
holdings keys are distinct and active lots have non-zero shares, as in
every reachable state): (i) for each ticker with a known price, exactly
the active lots with `return_pct ≤ sell_trigger` are changed, each
liquidated entirely — `sold := true`, `shares_remaining := 0` — and
every other lot (in particular every lot with `return_pct >
sell_trigger`) is untouched; tickers without a price are untouched;
(ii) cash is credited with `round(shares_remaining × price, 2)` for each
harvested lot; (iii) the returned `sold_tickers` contains a ticker
exactly when the ticker has a known price and at least one active lot at
or below the trigger. -/
theorem C3_harvest_exact (p : Portfolio) (pricesAt : String → Option ℚ)
    (date : ℕ) (txns : List Txn) (trigger : ℚ)
    (hN : (p.holdings.map Prod.fst).Nodup)
    (hA : ∀ e ∈ p.holdings, ∀ l ∈ e.2.investments,
      l.sold = false → l.shares_remaining ≠ 0) :
    (∀ e ∈ p.holdings,
      dictGet (track_and_manage_positions p pricesAt date txns
          trigger).1.holdings e.1 =
        some (match pricesAt e.1 with
          | none => e.2
          | some _ =>
            { e.2 with
                investments :=
                  e.2.investments.map (harvestSpecLot trigger),
                shares_remaining := e.2.shares_remaining -
                  harvestedShares trigger e.2.investments })) ∧
    (track_and_manage_positions p pricesAt date txns trigger).1.cash =
      p.cash + (p.holdings.map (fun e =>
        match pricesAt e.1 with
        | none => 0
        | some price =>
          harvestSpecProceeds trigger price e.2.investments)).sum ∧
    (∀ t, t ∈ (track_and_manage_positions p pricesAt date txns
        trigger).2.2 ↔
      ∃ h, (t, h) ∈ p.holdings ∧ (pricesAt t).isSome = true ∧
        ∃ l ∈ h.investments, l.sold = false ∧
          l.return_pct ≤ trigger) := by
  obtain ⟨A1, A2, A3, A4⟩ := harvestAll_spec pricesAt date trigger
    p.holdings p txns [] hN (fun e he => dictGet_of_mem_nodup hN he)
  refine ⟨?_, ?_, ?_⟩
  · intro e he
    rw [track_and_manage_positions, A1 e he]
    cases hp : pricesAt e.1 with
    | none => rfl
    | some price =>
      simp only
      rw [harvestHolding]
      rw [List.map_congr_left
        (fun l hl => markLot_eq_spec (hA e he l hl))]
  · rw [track_and_manage_positions, A3]
    congr 1
    apply congrArg
    apply List.map_congr_left
    intro e he
    cases hp : pricesAt e.1 with
    | none => rfl
    | some price =>
      simp only
      rw [harvestedProceeds, harvestSpecProceeds,
        List.filter_congr
          (fun l hl => by rw [harvestHit_eq_spec (hA e he l hl)])]
  · intro t
    rw [track_and_manage_positions, A4]
    simp only [List.nil_append, List.mem_map]
    constructor
    · rintro ⟨e, hef, rfl⟩
      obtain ⟨he, hcond⟩ := List.mem_filter.mp hef
      rw [Bool.and_eq_true] at hcond
      obtain ⟨hsome, hany⟩ := hcond
      obtain ⟨l, hl, hhit⟩ := List.any_eq_true.mp hany
      rw [harvestHit_eq_spec (hA e he l hl), Bool.and_eq_true] at hhit
      refine ⟨e.2, ?_, hsome, l, hl, by simpa using hhit.1,
        by simpa using hhit.2⟩
      exact he
    · rintro ⟨h, hmem, hsome, l, hl, hsold, htrig⟩
      refine ⟨(t, h), List.mem_filter.mpr ⟨hmem, ?_⟩, rfl⟩
      rw [Bool.and_eq_true]
      refine ⟨hsome, List.any_eq_true.mpr ⟨l, hl, ?_⟩⟩
      rw [harvestHit_eq_spec (hA (t, h) hmem l hl), Bool.and_eq_true]
      exact ⟨by simp [hsold], by simpa using htrig⟩

/-- The lot used in the C3 witness: active, down 50%. -/
def exC3lot : Lot :=
  { date := 0, initial_shares_purchased := 1, shares_remaining := 1,
    price := 10, cost := 10, current_value := 5, return_pct := -50,
    days_held := 10, sold := false }

/-- The portfolio used in the C3 witness. -/
def exC3P : Portfolio :=
  mkPortfolio 0 [("A",
    { initial_shares_purchased := 1, shares_remaining := 1,
      investments := [exC3lot], cost_basis := 10 })]

/-- The price row used in the C3 witness. -/
def exC3prices : String → Option ℚ :=
  fun t => if t = "A" then some 5 else none

/-- C3 witness: with one active lot down 50% against a −10% trigger, the
sold-tickers characterization holds at ticker "A". -/
theorem C3_witness :
    "A" ∈ (track_and_manage_positions exC3P exC3prices 3 [] (-10)).2.2 ↔
      ∃ h, ("A", h) ∈ exC3P.holdings ∧ (exC3prices "A").isSome = true ∧
        ∃ l ∈ h.investments, l.sold = false ∧ l.return_pct ≤ -10 :=
  (C3_harvest_exact exC3P exC3prices 3 [] (-10)
    (by simp [exC3P, mkPortfolio])
    (by
      intro e he l hl
      simp [exC3P, mkPortfolio] at he
      subst he
      simp at hl
      subst hl
      intro _
      norm_num [exC3lot])).2.2 "A"

/-! ## C6 — the `sold` flag vs `shares_remaining` -/

/-- The holding used in the C6 counterexample and witness. -/
def exC6lot : Lot :=
  { date := 0, initial_shares_purchased := 1, shares_remaining := 1,
    price := 10, cost := 10, current_value := 10, return_pct := 0,
    days_held := 0, sold := false }

def exC6P : Portfolio :=
  mkPortfolio 0 [("A",
    { initial_shares_purchased := 1, shares_remaining := 1,
      investments := [exC6lot], cost_basis := 10 })]

/-- C6 (counterexample): selling a whole 1-share lot takes the
full-consumption branch, which sets `sold := True` but leaves the lot's
`shares_remaining` at 1 — so a lot is marked sold *without* its
`shares_remaining` having reached 0. -/
theorem C6_counterexample :
    ((dictGet (sell_position exC6P "A" 1 10 0 []).portfolio.holdings
        "A").getD emptyHolding).investments =
      [{ exC6lot with sold := true }] ∧
    ({ exC6lot with sold := true } : Lot).shares_remaining = 1 ∧
    exC6lot.sold = false := by
  refine ⟨?_, by norm_num [exC6lot], rfl⟩
  norm_num [sell_position, sellWalk, sellStepPortfolio, sellTxn,
    sellingQueue, idxFrom, dictGet, dictSet, record_gains_losses,
    exC6P, mkPortfolio, exC6lot, round2, round4, roundTo, rndHalfEven]

/-- C6 (amended): when `sell_position` newly marks a lot `sold = true`,
the lot's `shares_remaining` is either left exactly as it was (full
consumption — possibly positive) or is 0 (a partial consumption whose
rounded remainder hit zero); when tax-loss harvesting marks a lot sold,
its `shares_remaining` is always 0. -/
theorem C6_sold_flag :
    (∀ (p : Portfolio) (ticker : String) (shares_to_sell price : ℚ)
        (date : ℕ) (txns : List Txn) (h h' : Holding),
      dictGet p.holdings ticker = some h →
      dictGet (sell_position p ticker shares_to_sell price date
          txns).portfolio.holdings ticker = some h' →
      ∀ (j : ℕ) (pre post : Lot), h.investments[j]? = some pre →
        h'.investments[j]? = some post → pre.sold = false →
        post.sold = true →
        post.shares_remaining = pre.shares_remaining ∨
          post.shares_remaining = 0) ∧
    (∀ (p : Portfolio) (pricesAt : String → Option ℚ) (date : ℕ)
        (txns : List Txn) (trigger : ℚ) (t : String) (h h' : Holding),
      (p.holdings.map Prod.fst).Nodup →
      (t, h) ∈ p.holdings →
      dictGet (track_and_manage_positions p pricesAt date txns
          trigger).1.holdings t = some h' →
      ∀ (j : ℕ) (pre post : Lot), h.investments[j]? = some pre →
        h'.investments[j]? = some post → pre.sold = false →
        post.sold = true → post.shares_remaining = 0) := by
  constructor
  · intro p ticker sts price date txns h h' hh hres j pre post hpre hpost
      hps hpsold
    have hWlots : h'.investments =
        (sellWalk ticker price date (sellingQueue h.investments price)
          sts h.investments p txns).lots := by
      revert hres
      simp only [sell_position, hh]
      by_cases hc : 0 < sts -
          (sellWalk ticker price date (sellingQueue h.investments price)
            sts h.investments p txns).remaining
      · rw [if_pos hc, dictGet_dictSet_self]
        intro hres
        injection hres with hres'
        rw [← hres']
      · rw [if_neg hc, dictGet_dictSet_self]
        intro hres
        injection hres with hres'
        rw [← hres']
    rw [hWlots] at hpost
    by_cases hj : j ∈ (sellingQueue h.investments price).map Prod.fst
    · obtain ⟨e, he, rfl⟩ := List.mem_map.mp hj
      have hget := sellingQueue_getElem? he
      rw [hpre] at hget
      obtain rfl : pre = e.2 := by injection hget
      obtain ⟨post', hpost', hstep⟩ := sellWalk_lot_step ticker price date
        (sellingQueue h.investments price) sts h.investments p txns
        (fun e' he' => sellingQueue_getElem? he')
        (fun e' he' => (sellingQueue_mem he').2)
        (sellingQueue_fst_nodup h.investments price) e he
      rw [hpost] at hpost'
      obtain rfl : post = post' := by injection hpost'
      rcases hstep with h1 | h1 | ⟨r', h1⟩
      · rw [h1] at hpsold
        rw [hps] at hpsold
        cases hpsold
      · rw [h1]
        exact Or.inl rfl
      · rw [h1] at hpsold ⊢
        exact Or.inr (of_decide_eq_true hpsold)
    · rw [sellWalk_untouched ticker price date _ _ _ _ _ j hj, hpre]
        at hpost
      obtain rfl : pre = post := by injection hpost
      rw [hps] at hpsold
      cases hpsold
  · intro p pricesAt date txns trigger t h h' hN hmem hres j pre post
      hpre hpost hps hpsold
    obtain ⟨A1, _, _, _⟩ := harvestAll_spec pricesAt date trigger
      p.holdings p txns [] hN (fun e he => dictGet_of_mem_nodup hN he)
    have hA1 := A1 (t, h) hmem
    rw [track_and_manage_positions] at hres
    rw [hA1] at hres
    injection hres with hres'
    cases hp : pricesAt t with
    | none =>
      rw [hp] at hres'
      simp only at hres'
      rw [← hres'] at hpost
      rw [hpre] at hpost
      obtain rfl : pre = post := by injection hpost
      rw [hps] at hpsold
      cases hpsold
    | some price =>
      rw [hp] at hres'
      have hres2 : harvestHolding trigger h = h' := hres'
      rw [← hres2] at hpost
      have hpost2 : (h.investments.map (markLot trigger))[j]? = some post :=
        hpost
      rw [List.getElem?_map _ _ j, hpre] at hpost2
      simp only [Option.map_some'] at hpost2
      obtain rfl : markLot trigger pre = post := by injection hpost2
      rw [markLot] at hpsold ⊢
      by_cases hhit : harvestHit trigger pre = true
      · rw [if_pos hhit]
      · rw [if_neg hhit] at hpsold
        rw [hps] at hpsold
        cases hpsold

/-- C6 witness: the concrete full-lot sale of `exC6P`, pushed through the
sell clause of the amended theorem. -/
theorem C6_witness :
    ({ exC6lot with sold := true } : Lot).shares_remaining =
        exC6lot.shares_remaining ∨
      ({ exC6lot with sold := true } : Lot).shares_remaining = 0 :=
  C6_sold_flag.1 exC6P "A" 1 10 0 []
    { initial_shares_purchased := 1, shares_remaining := 1,
      investments := [exC6lot], cost_basis := 10 }
    { initial_shares_purchased := 1, shares_remaining := 0,
      investments := [{ exC6lot with sold := true }], cost_basis := 10 }
    (by norm_num [exC6P, mkPortfolio, dictGet])
    (by norm_num [sell_position, sellWalk, sellStepPortfolio, sellTxn,
      sellingQueue, idxFrom, dictGet, dictSet, record_gains_losses,
      exC6P, mkPortfolio, exC6lot, round2, round4, roundTo, rndHalfEven])
    0 exC6lot { exC6lot with sold := true }
    (by simp) (by simp) rfl rfl

/-! ## C1 — the ledger invariant under the three operations -/

theorem activeShares_markLot (trigger : ℚ) :
    ∀ (lots : List Lot),
      (∀ l ∈ lots, l.sold = false → 0 ≤ l.shares_remaining) →
      activeShares (lots.map (markLot trigger)) =
        activeShares lots - harvestedShares trigger lots
  | [], _ => by simp [activeShares, harvestedShares]
  | l :: t, h => by
    have IH := activeShares_markLot trigger t
      (fun x hx => h x (List.mem_cons_of_mem _ hx))
    rw [List.map_cons]
    by_cases hhit : harvestHit trigger l = true
    · have hparts := hhit
      rw [harvestHit] at hparts
      simp only [Bool.and_eq_true, Bool.not_eq_true',
        decide_eq_true_eq] at hparts
      have hsold : l.sold = false := hparts.1.1
      have hne : ¬l.shares_remaining = 0 := by
        have hb := hparts.1.2
        simpa using hb
      have hpos : 0 < l.shares_remaining :=
        lt_of_le_of_ne (h l (List.mem_cons_self _ _) hsold) (Ne.symm hne)
      have e1 : activeShares
          ({ l with sold := true, shares_remaining := 0 } ::
            t.map (markLot trigger)) =
          activeShares (t.map (markLot trigger)) := by
        simp [activeShares, List.filter_cons]
      have e2 : activeShares (l :: t) =
          l.shares_remaining + activeShares t := by
        simp [activeShares, List.filter_cons, hsold]
      have e3 : harvestedShares trigger (l :: t) =
          l.shares_remaining + harvestedShares trigger t := by
        simp [harvestedShares, List.filter_cons, hhit, hpos]
      rw [markLot, if_pos hhit, e1, IH, e2, e3]
      ring
    · have e3 : harvestedShares trigger (l :: t) =
          harvestedShares trigger t := by
        simp [harvestedShares, List.filter_cons, hhit]
      rw [markLot, if_neg hhit]
      cases hsold : l.sold with
      | true =>
        have e1 : activeShares (l :: t.map (markLot trigger)) =
            activeShares (t.map (markLot trigger)) := by
          simp [activeShares, List.filter_cons, hsold]
        have e2 : activeShares (l :: t) = activeShares t := by
          simp [activeShares, List.filter_cons, hsold]
        rw [e1, e2, e3, IH]
      | false =>
        have e1 : activeShares (l :: t.map (markLot trigger)) =
            l.shares_remaining + activeShares (t.map (markLot trigger)) := by
          simp [activeShares, List.filter_cons, hsold]
        have e2 : activeShares (l :: t) =
            l.shares_remaining + activeShares t := by
          simp [activeShares, List.filter_cons, hsold]
        rw [e1, e2, e3, IH]
        ring

theorem harvestAll_portfolioInv (pricesAt : String → Option ℚ) (date : ℕ)
    (trigger : ℚ) :
    ∀ (entries : List (String × Holding)) (p : Portfolio)
      (txns : List Txn) (st : List String),
      portfolioInv p →
      (∀ e ∈ entries, holdingInv e.2 ∧
        ∀ l ∈ e.2.investments, l.sold = false → 0 ≤ l.shares_remaining) →
      portfolioInv (harvestAll pricesAt date trigger entries p txns st).1
  | [], p, txns, st, hp, _ => hp
  | e :: rest, p, txns, st, hp, hent => by
    simp only [harvestAll]
    apply harvestAll_portfolioInv pricesAt date trigger rest
    · cases hpc : pricesAt e.1 with
      | none =>
        rw [harvestTicker_none hpc]
        exact hp
      | some price =>
        intro x hx
        rw [(harvestTicker_some hpc).1] at hx
        rcases dictSet_mem hx with h1 | h1
        · obtain ⟨hinv, hnn⟩ := hent e (List.mem_cons_self _ _)
          rw [h1]
          show e.2.shares_remaining -
              harvestedShares trigger e.2.investments =
            activeShares (e.2.investments.map (markLot trigger))
          rw [activeShares_markLot trigger e.2.investments hnn,
            show e.2.shares_remaining = activeShares e.2.investments
              from hinv]
        · exact hp x h1
    · exact fun x hx => hent x (List.mem_cons_of_mem _ hx)

theorem buy_position_holdings_char (p : Portfolio) (ticker : String)
    (stb price : ℚ) (date : ℕ) (txns : List Txn) :
    (buy_position p ticker stb price date txns).1.holdings = p.holdings ∨
    ∃ (sb : ℚ) (h' : Holding),
      (buy_position p ticker stb price date txns).1.holdings =
          dictSet p.holdings ticker h' ∧
        h'.shares_remaining =
          ((dictGet p.holdings ticker).getD
            emptyHolding).shares_remaining + sb ∧
        ∃ l : Lot, l.sold = false ∧ l.shares_remaining = sb ∧
          h'.investments =
            ((dictGet p.holdings ticker).getD
              emptyHolding).investments ++ [l] := by
  simp only [buy_position]
  by_cases hc : p.cash < round2 (stb * price)
  · simp only [if_pos hc]
    by_cases hpos : 0 < p.cash / price
    · rw [if_pos hpos]
      right
      exact ⟨p.cash / price, _, rfl, rfl, _, rfl, rfl, rfl⟩
    · rw [if_neg hpos]
      left
      rfl
  · simp only [if_neg hc]
    by_cases hpos : 0 < stb
    · rw [if_pos hpos]
      right
      exact ⟨stb, _, rfl, rfl, _, rfl, rfl, rfl⟩
    · rw [if_neg hpos]
      left
      rfl

/-- The lot used in the C1 counterexample: one whole share. -/
def exC1lot : Lot :=
  { date := 0, initial_shares_purchased := 1, shares_remaining := 1,
    price := 10, cost := 10, current_value := 10, return_pct := 0,
    days_held := 0, sold := false }

def exC1P : Portfolio :=
  mkPortfolio 0 [("A",
    { initial_shares_purchased := 1, shares_remaining := 1,
      investments := [exC1lot], cost_basis := 10 })]

/-- C1 (counterexample): selling `1/8 = 0.125` shares hits the
partial-sale branch, which rounds the lot decrement (`round(0.125, 2) =
0.12`, lot left at `round(1 - 0.12, 4) = 0.88`) but subtracts the
*unrounded* demand from the holding total (`1 - 0.125 = 0.875`), so the
ledger invariant `Holding.shares_remaining = Σ active lots` that held
before the call (`1 = 1`) is broken after it (`0.875 ≠ 0.88`). -/
theorem C1_counterexample :
    portfolioInv exC1P ∧
      ¬ portfolioInv (sell_position exC1P "A" (1/8) 10 0 []).portfolio := by
  constructor
  · intro e he
    simp only [exC1P, mkPortfolio, List.mem_singleton] at he
    subst he
    show (1 : ℚ) = activeShares [exC1lot]
    norm_num [activeShares, exC1lot]
  · intro hcontra
    have hmem : ("A",
        ({ initial_shares_purchased := 1, shares_remaining := 7/8,
           investments := [{ exC1lot with shares_remaining := 22/25 }],
           cost_basis := 10 } : Holding)) ∈
        (sell_position exC1P "A" (1/8) 10 0 []).portfolio.holdings := by
      norm_num [sell_position, sellWalk, sellStepPortfolio, sellTxn,
        sellingQueue, idxFrom, dictGet, dictSet, record_gains_losses,
        exC1P, mkPortfolio, exC1lot, round2, round4, roundTo, rndHalfEven]
    have h1 := hcontra _ hmem
    norm_num [holdingInv, activeShares, exC1lot] at h1

/-- C1 (amended): the ledger invariant
`Holding.shares_remaining = Σ shares_remaining over active lots` is
preserved unconditionally by `buy_position`; by `sell_position` provided
the requested share count and every active lot's `shares_remaining` are
non-negative whole-cent amounts (otherwise the partial-sale branch
rounds the lot decrement but not the holding decrement and the two
ledgers drift, as in the `0.125`-share counterexample); and by
`track_and_manage_positions` provided every active lot has non-negative
`shares_remaining`. -/
theorem C1_ledger_invariant :
    (∀ (p : Portfolio) (ticker : String) (stb price : ℚ) (date : ℕ)
        (txns : List Txn), portfolioInv p →
      portfolioInv (buy_position p ticker stb price date txns).1) ∧
    (∀ (p : Portfolio) (ticker : String) (sts price : ℚ) (date : ℕ)
        (txns : List Txn), portfolioInv p →
      decMul 2 sts →
      (∀ e ∈ p.holdings, ∀ l ∈ e.2.investments, l.sold = false →
        decMul 2 l.shares_remaining ∧ 0 ≤ l.shares_remaining) →
      portfolioInv (sell_position p ticker sts price date
        txns).portfolio) ∧
    (∀ (p : Portfolio) (pricesAt : String → Option ℚ) (date : ℕ)
        (txns : List Txn) (trigger : ℚ), portfolioInv p →
      (∀ e ∈ p.holdings, ∀ l ∈ e.2.investments, l.sold = false →
        0 ≤ l.shares_remaining) →
      portfolioInv (track_and_manage_positions p pricesAt date txns
        trigger).1) := by
  refine ⟨?_, ?_, ?_⟩
  · intro p ticker stb price date txns hp
    rcases buy_position_holdings_char p ticker stb price date txns with
      hchar | ⟨sb, h', hchar, hrem, l, hls, hlr, hinvs⟩
    · intro x hx
      rw [hchar] at hx
      exact hp x hx
    · intro x hx
      rw [hchar] at hx
      rcases dictSet_mem hx with h1 | h1
      · rw [h1]
        show h'.shares_remaining = activeShares h'.investments
        rw [hrem, hinvs, activeShares_append]
        have hl1 : activeShares [l] = sb := by
          rw [activeShares_cons]
          simp [lotActive, hls, hlr, activeShares]
        have hbase : ((dictGet p.holdings ticker).getD
            emptyHolding).shares_remaining =
            activeShares ((dictGet p.holdings ticker).getD
              emptyHolding).investments := by
          cases hg : dictGet p.holdings ticker with
          | none => simp [emptyHolding, activeShares]
          | some h0 => simpa using hp _ (dictGet_mem hg)
        rw [hl1, hbase]
      · exact hp x h1
  · intro p ticker sts price date txns hp hc2 hlots
    cases hd : dictGet p.holdings ticker with
    | none =>
      simp only [sell_position, hd]
      exact hp
    | some h =>
      have hmem0 : (ticker, h) ∈ p.holdings := dictGet_mem hd
      have hinv : h.shares_remaining = activeShares h.investments :=
        hp _ hmem0
      have hget : ∀ e ∈ sellingQueue h.investments price,
          h.investments[e.1]? = some e.2 :=
        fun e he => sellingQueue_getElem? he
      have hact : ∀ e ∈ sellingQueue h.investments price,
          e.2.sold = false := fun e he => (sellingQueue_mem he).2
      have hcnn : ∀ e ∈ sellingQueue h.investments price,
          decMul 2 e.2.shares_remaining ∧ 0 ≤ e.2.shares_remaining := by
        intro e he
        have hl : e.2 ∈ h.investments := List.getElem?_mem (hget e he)
        exact hlots (ticker, h) hmem0 e.2 hl (hact e he)
      have hAS := sellWalk_activeShares_cent ticker price date
        (sellingQueue h.investments price) sts h.investments p txns
        hget (sellingQueue_fst_nodup h.investments price) hact
        (fun e he => (hcnn e he).1) hc2
      have hRem := sellWalk_remaining_le ticker price date
        (sellingQueue h.investments price) sts h.investments p txns
        (fun e he => (hcnn e he).2)
      have hH := sellWalk_holdings ticker price date
        (sellingQueue h.investments price) sts h.investments p txns
      simp only [sell_position, hd]
      by_cases hpos : 0 < sts -
          (sellWalk ticker price date (sellingQueue h.investments price)
            sts h.investments p txns).remaining
      · rw [if_pos hpos]
        intro x hx
        rcases dictSet_mem hx with h1 | h1
        · rw [h1]
          show h.shares_remaining -
              (sts - (sellWalk ticker price date
                (sellingQueue h.investments price) sts h.investments p
                txns).remaining) =
            activeShares (sellWalk ticker price date
              (sellingQueue h.investments price) sts h.investments p
              txns).lots
          rw [hAS, hinv]
        · rw [hH] at h1
          exact hp x h1
      · rw [if_neg hpos]
        intro x hx
        rcases dictSet_mem hx with h1 | h1
        · rw [h1]
          have hz : sts - (sellWalk ticker price date
              (sellingQueue h.investments price) sts h.investments p
              txns).remaining = 0 :=
            le_antisymm (not_lt.mp hpos) (by linarith)
          show h.shares_remaining =
            activeShares (sellWalk ticker price date
              (sellingQueue h.investments price) sts h.investments p
              txns).lots
          rw [hAS, hz, hinv]
          ring
        · rw [hH] at h1
          exact hp x h1
  · intro p pricesAt date txns trigger hp hnn
    rw [track_and_manage_positions]
    exact harvestAll_portfolioInv pricesAt date trigger p.holdings p txns
      [] hp (fun e he => ⟨hp e he, fun l hl => hnn e he l hl⟩)

/-- C1 witness: the buy clause of the amended invariant theorem applied
to a concrete fresh portfolio. -/
theorem C1_witness :
    portfolioInv (buy_position (mkPortfolio 100 []) "A" 1 10 0 []).1 :=
  C1_ledger_invariant.1 (mkPortfolio 100 []) "A" 1 10 0 []
    (by intro e he; simp [mkPortfolio] at he)
